import Mathlib

/-!
# Verification of `ManagedStringAggState`

A shallow embedding of
`src/rust/server/src/stream_op/managed_state/aggregation/string_agg.rs`.

Modelling conventions:

* `Bytes` (the Rust `Bytes` byte strings used as encoded sort keys and as
  serialized values) is `List Nat`, ordered lexicographically by Mathlib's
  `LinearOrder (List Nat)` instance, matching byte-lexicographic order of
  the store and of `BTreeMap<Bytes, _>`.
* The `BTreeMap` cache and the key-value store are embedded as association
  lists kept sorted by strictly increasing key (`KeysSorted`); `kvSet`,
  `kvErase`, `kvGet` are the map operations.
* The sort-key serialization of a batch row (`OrderedArraysSerializer`
  applied to the sort-key columns) and the value-column projection
  (`data[value_index].datum_at(row_idx)`) are pre-applied: a batch row is
  its op, its encoded sort key, and its value-column datum.
* The single state instance under verification owns its whole keyspace, so
  `prefixed_key` / `scan_strip_prefix` namespace prefixing is the identity.
* `usize` counters are `Nat`; the one place the source does unchecked
  `usize` subtraction (`self.total_count -= 1`) is embedded as `usizeSub1`,
  which wraps to `2 ^ 64 - 1` at zero, the release-build underflow value.
* The Rust `assert!` / `assert_eq!` aborts are embedded as `Option`
  results: `none` is a panic, never a recoverable error.
-/

/-- Byte strings (Rust `Bytes`), ordered lexicographically. -/
abbrev Bytes : Type := List Nat

/-- Stream-chunk row operations (`risingwave_common::array::stream_chunk::Op`). -/
inductive Op : Type where
  | Insert : Op
  | Delete : Op
  | UpdateInsert : Op
  | UpdateDelete : Op
deriving DecidableEq, Repr

/-- Modelled from the spec: the Change-Status Lattice (`FlushStatus<T>` from
`flush_status.rs`, which is outside the sampled sources). Variants per §3 of
the spec: `Insert v` (new, unknown to storage), `Delete` (must be removed from
storage), `DeleteInsert v` (known present with current value `v`). -/
inductive FlushStatus : Type where
  | Insert : String → FlushStatus
  | Delete : FlushStatus
  | DeleteInsert : String → FlushStatus
deriving DecidableEq, Repr

namespace FlushStatus

/-- Currently-present value of an entry (`FlushStatus::as_option` /
`into_option`): `Insert`/`DeleteInsert` carry a live value, `Delete` none. -/
def asOption : FlushStatus → Option String
  | .Insert v => some v
  | .Delete => none
  | .DeleteInsert v => some v

end FlushStatus

/-- Association list sorted by strictly increasing key: the embedding of
`BTreeMap<Bytes, β>` and of the ordered store. -/
abbrev KVList (β : Type) : Type := List (Bytes × β)

/-- Keys of an association list. -/
def kvKeys {β : Type} (l : KVList β) : List Bytes := l.map Prod.fst

/-- Strictly-increasing-keys invariant of the ordered containers. -/
def KeysSorted {β : Type} (l : KVList β) : Prop :=
  List.Pairwise (· < ·) (kvKeys l)

instance {β : Type} (l : KVList β) : Decidable (KeysSorted l) := by
  unfold KeysSorted; infer_instance

/-- Lookup (`BTreeMap::get` / presence test for `Entry`). -/
def kvGet {β : Type} (k : Bytes) : KVList β → Option β
  | [] => none
  | (k', v) :: rest => if k = k' then some v else kvGet k rest

/-- Insert-or-replace at the ordered position (`BTreeMap::insert`,
`Entry::or_insert`-style writes). -/
def kvSet {β : Type} (k : Bytes) (v : β) : KVList β → KVList β
  | [] => [(k, v)]
  | (k', v') :: rest =>
    if k < k' then (k, v) :: (k', v') :: rest
    else if k = k' then (k, v) :: rest
    else (k', v') :: kvSet k v rest

/-- Remove a key (`BTreeMap::remove` / `OccupiedEntry::remove`). -/
def kvErase {β : Type} (k : Bytes) : KVList β → KVList β
  | [] => []
  | (k', v') :: rest =>
    if k = k' then rest else (k', v') :: kvErase k rest

/-- The cache: `BTreeMap<Bytes, FlushStatus<ScalarImpl>>`. -/
abbrev Cache : Type := KVList FlushStatus

/-- The ordered key-value store under this state's keyspace: scanning it
yields its entries in ascending raw-key order. -/
abbrev Store : Type := KVList Bytes

/-- Modelled from the spec: `FlushStatus::do_insert` on `cache.entry(k)`
(§3 merge rules: inserting over nothing yields `Insert v`, over `Delete`
yields `DeleteInsert v`, over `Insert`/`DeleteInsert` overwrites the value
preserving the variant). -/
def doInsert (c : Cache) (k : Bytes) (v : String) : Cache :=
  match kvGet k c with
  | none => kvSet k (FlushStatus.Insert v) c
  | some (.Insert _) => kvSet k (FlushStatus.Insert v) c
  | some .Delete => kvSet k (FlushStatus.DeleteInsert v) c
  | some (.DeleteInsert _) => kvSet k (FlushStatus.DeleteInsert v) c

/-- Modelled from the spec: `FlushStatus::do_delete` on `cache.entry(k)`
(§3 merge rules: deleting `Insert _` removes the entry entirely, deleting
`DeleteInsert _` yields `Delete`, deleting nothing yields `Delete`; deleting
an already-`Delete` entry, unspecified by the spec and unreachable through
valid retraction streams, is kept as `Delete`). -/
def doDelete (c : Cache) (k : Bytes) : Cache :=
  match kvGet k c with
  | none => kvSet k FlushStatus.Delete c
  | some (.Insert _) => kvErase k c
  | some .Delete => c
  | some (.DeleteInsert _) => kvSet k FlushStatus.Delete c

/-- Wrapping decrement of a 64-bit `usize` (`self.total_count -= 1`): exact
for positive counts, and `0 - 1` wraps to `2 ^ 64 - 1` as in release builds. -/
def usizeSub1 (n : Nat) : Nat :=
  if n = 0 then 2 ^ 64 - 1 else n - 1

/-- Serialization of the value of one cache entry
(`serialize_datum_not_null_into` of a `Utf8` scalar into a fresh
memcomparable serializer): a byte encoding of the string, injective with
`deserializeValue` as inverse. -/
def serializeValue (s : String) : Bytes :=
  s.data.map Char.toNat

/-- Deserialization of one stored value
(`deserialize_datum_not_null_from(&DataTypeKind::Char, ..)` followed by
`.unwrap()` and `into_utf8`). -/
def deserializeValue (b : Bytes) : String :=
  String.mk (b.map Char.ofNat)

/-- The managed state (`ManagedStringAggState<S>`). The sort-key and
value-column configuration and the keyspace handle are represented by the
modelling conventions above; the remaining owned data is embedded directly. -/
structure AggState : Type where
  cache : Cache
  result : Option String
  dirty : Bool
  total_count : Nat
  delimiter : String
deriving DecidableEq, Repr

/-- `ManagedStringAggState::new(keyspace, row_count, ..)`: empty cache, no
memoized result, clean, externally supplied row count. -/
def newState (row_count : Nat) (delimiter : String) : AggState :=
  { cache := [], result := none, dirty := false,
    total_count := row_count, delimiter := delimiter }

/-- `read_all_into_memory`: asserts `!dirty` (`none` embeds the panic),
scans the whole keyspace in ascending key order, inserts every entry as
`DeleteInsert(value)` under its raw key, and clears `dirty`. -/
def readAllIntoMemory (store : Store) (st : AggState) : Option AggState :=
  if st.dirty then none
  else some { st with
    cache := store.foldl (fun c kv =>
      kvSet kv.1 (FlushStatus.DeleteInsert (deserializeValue kv.2)) c) st.cache,
    dirty := false }

/-- `concat_strings_in_cache_into_result`: no-op when a result is memoized or
`total_count == 0`; otherwise joins the present values of the cache, in key
order, with the delimiter, and memoizes the string. -/
def concatStringsInCacheIntoResult (st : AggState) : AggState :=
  if st.result.isSome then st
  else if st.total_count = 0 then st
  else { st with
    result := some (String.intercalate st.delimiter
      (st.cache.filterMap (fun kv => kv.2.asOption))) }

/-- One row of a batch after sort-key serialization and value-column
projection: the row's op, its encoded sort key (`row_keys[row_idx]`), and
its value-column datum (`data[value_index].datum_at(row_idx)`). -/
structure Row : Type where
  op : Op
  key : Bytes
  value : Option String
deriving DecidableEq, Repr

/-- Visibility of row `row_idx` under the optional bitmap:
`visibility.map(|x| x.is_set(row_idx).unwrap()).unwrap_or(true)`. Callers
guarantee (via `verify_batch`) that the mask length equals the batch length,
so the out-of-range default is never exercised. -/
def rowVisible (vis : Option (List Bool)) (i : Nat) : Bool :=
  match vis with
  | none => true
  | some m => m.getD i true

/-- Effect of one visible row on the state: null values become the empty
string; `Insert`/`UpdateInsert` merge an insert and increment `total_count`;
`Delete`/`UpdateDelete` merge a delete and decrement it (unchecked `usize`
subtraction); either way `dirty` is set and the memoized result cleared. -/
def applyOp (st : AggState) (r : Row) : AggState :=
  let v : String := r.value.getD ""
  match r.op with
  | .Insert | .UpdateInsert =>
    { st with cache := doInsert st.cache r.key v,
              total_count := st.total_count + 1,
              dirty := true, result := none }
  | .Delete | .UpdateDelete =>
    { st with cache := doDelete st.cache r.key,
              total_count := usizeSub1 st.total_count,
              dirty := true, result := none }

/-- The visible-row loop of `apply_batch`, starting at row index `i`. -/
def applyRowsFrom (vis : Option (List Bool)) : Nat → AggState → List Row → AggState
  | _, st, [] => st
  | i, st, r :: rest =>
    applyRowsFrom vis (i + 1) (if rowVisible vis i then applyOp st r else st) rest

/-- The residency phase of `apply_batch`: when `total_count > cache.len()`,
assert `cache.len() == 0` (`none` embeds the panic) and load everything from
storage; otherwise leave the state untouched. -/
def applyBatchLoad (store : Store) (st : AggState) : Option AggState :=
  if st.cache.length < st.total_count then
    if st.cache.length = 0 then readAllIntoMemory store st else none
  else some st

/-- `apply_batch`: ensure full residency, then apply every visible row in
order. `none` embeds a panic of the residency phase. -/
def applyBatch (store : Store) (st : AggState) (rows : List Row)
    (vis : Option (List Bool)) : Option AggState :=
  (applyBatchLoad store st).map (fun st1 => applyRowsFrom vis 0 st1 rows)

/-- `get_output`: may be called dirty; returns the memoized result when clean,
absent when `total_count == 0`, otherwise (re)computes from the cache, loading
from storage first when clean and empty. Returns the updated state and the
returned `Datum`. -/
def getOutput (store : Store) (st : AggState) : Option (AggState × Option String) :=
  if st.dirty then
    some (concatStringsInCacheIntoResult st,
      (concatStringsInCacheIntoResult st).result)
  else
    match st.result with
    | some res => some (st, some res)
    | none =>
      if st.total_count = 0 then some (st, none)
      else if st.cache.isEmpty then
        (readAllIntoMemory store st).map (fun st1 =>
          (concatStringsInCacheIntoResult st1,
            (concatStringsInCacheIntoResult st1).result))
      else
        some (concatStringsInCacheIntoResult st,
          (concatStringsInCacheIntoResult st).result)

/-- The write-batch operation for one drained cache entry: a put of the key
with the serialized value for a present entry, a tombstone for `Delete`. -/
def entryToWriteOp (kv : Bytes × FlushStatus) : Bytes × Option Bytes :=
  (kv.1, kv.2.asOption.map serializeValue)

/-- The drain loop of `flush`, with an abstract per-value serializer that may
fail (the source's `serialize_datum_not_null_into` returns `Result`): pushes
one operation per entry onto the caller's write batch; on a serialization
failure it returns at once, with `error` carrying the write batch as already
extended by the preceding entries (the Rust `?` on a `&mut Vec` argument). -/
def flushLoop (ser : String → Option Bytes) :
    List (Bytes × FlushStatus) → List (Bytes × Option Bytes) →
    Except (List (Bytes × Option Bytes)) (List (Bytes × Option Bytes))
  | [], wb => Except.ok wb
  | (k, v) :: rest, wb =>
    match v.asOption with
    | some val =>
      match ser val with
      | some bytes => flushLoop ser rest (wb ++ [(k, some bytes)])
      | none => Except.error wb
    | none => flushLoop ser rest (wb ++ [(k, none)])

/-- `flush` under an abstract serializer: no-op when clean; otherwise drains
the cache (`std::mem::take`), appending one operation per entry. On success
`dirty` is cleared; on a serialization failure the call returns an error with
the cache already drained, `dirty` still set, and the caller's write batch
already extended by the entries preceding the failure. -/
def flushWith (ser : String → Option Bytes) (st : AggState)
    (wb : List (Bytes × Option Bytes)) :
    AggState × List (Bytes × Option Bytes) × Bool :=
  if st.dirty then
    match flushLoop ser st.cache wb with
    | Except.ok wb' => ({ st with cache := [], dirty := false }, wb', true)
    | Except.error wb' => ({ st with cache := [] }, wb', false)
  else (st, wb, true)

/-- `flush` with the actual value serializer, which always succeeds. -/
def flush (st : AggState) (wb : List (Bytes × Option Bytes)) :
    AggState × List (Bytes × Option Bytes) :=
  let r := flushWith (fun s => some (serializeValue s)) st wb
  (r.1, r.2.1)

/-- `StateStore::ingest_batch` on this keyspace: apply puts (value present)
and deletes (value absent) to the ordered store, in write-batch order. -/
def ingestBatch (store : Store) (ops : List (Bytes × Option Bytes)) : Store :=
  ops.foldl (fun s op =>
    match op.2 with
    | some v => kvSet op.1 v s
    | none => kvErase op.1 s) store

/-- The currently-present values of the cache, in key order: what
`concat_strings_in_cache_into_result` joins. -/
def liveVals (c : Cache) : List String :=
  c.filterMap (fun kv => kv.2.asOption)

/-- Number of currently-present entries of the cache. -/
def countLive (c : Cache) : Nat :=
  (liveVals c).length

/-- Whether a looked-up entry is currently present (counts toward
`countLive`). -/
def bitOf : Option FlushStatus → Nat
  | some fs => match fs.asOption with
    | some _ => 1
    | none => 0
  | none => 0

/-- Whether key `k` currently has a present entry in the cache. -/
def isLive (c : Cache) (k : Bytes) : Bool :=
  match kvGet k c with
  | some fs => fs.asOption.isSome
  | none => false

/-- The cache produced by `read_all_into_memory` from an empty cache: every
stored entry under its raw key as `DeleteInsert` of the decoded value. -/
def loadCache (store : Store) : Cache :=
  store.map (fun kv => (kv.1, FlushStatus.DeleteInsert (deserializeValue kv.2)))

/-- The decoded values persisted in the store, in key order. -/
def storeVals (store : Store) : List String :=
  store.map (fun kv => deserializeValue kv.2)

/-- The store contents that flushing the cache produces: one put per present
entry, in key order. -/
def liveStore (c : Cache) : Store :=
  c.filterMap (fun kv => kv.2.asOption.map (fun v => (kv.1, serializeValue v)))

/-- Every persisted key is covered by a cache entry that is not a pure
`Insert` (loaded entries enter as `DeleteInsert` and can only move between
`DeleteInsert` and `Delete`). -/
def storeCovered (c : Cache) (store : Store) : Bool :=
  store.all (fun kv =>
    match kvGet kv.1 c with
    | some FlushStatus.Delete => true
    | some (FlushStatus.DeleteInsert _) => true
    | _ => false)

/-- The group's current value sequence in key order: the live cache values
when anything is cached, the persisted values otherwise. -/
def abstractVals (st : AggState) (store : Store) : List String :=
  if st.cache.isEmpty then storeVals store else liveVals st.cache

/-- Consistency of the memoized result: when present it is the delimiter
join of the current value sequence, and was computed with a nonzero count. -/
def resultOk (st : AggState) (store : Store) : Prop :=
  match st.result with
  | none => True
  | some r =>
    r = String.intercalate st.delimiter (abstractVals st store) ∧
      st.total_count ≠ 0

instance (st : AggState) (store : Store) : Decidable (resultOk st store) := by
  unfold resultOk
  cases st.result <;> infer_instance

/-- The state/store invariant maintained across the public interface: both
containers key-sorted; in a dirty state the cache covers every persisted key
and its present entries number `total_count`; in a clean state the cache is
either empty with `total_count` equal to the persisted size, or exactly the
loaded image of the store with `total_count` entries; and the memoized
result, if any, is consistent. -/
def StateInv (st : AggState) (store : Store) : Prop :=
  KeysSorted st.cache ∧ KeysSorted store ∧
  (st.dirty = true →
    storeCovered st.cache store = true ∧ countLive st.cache = st.total_count) ∧
  (st.dirty = false →
    (st.cache = [] ∧ store.length = st.total_count) ∨
    (st.cache = loadCache store ∧ st.cache.length = st.total_count)) ∧
  resultOk st store

instance (st : AggState) (store : Store) : Decidable (StateInv st store) := by
  unfold StateInv; infer_instance

/-- Validity of a batch against the cache it mutates, per the upstream
retraction-stream contract: every visible insert targets a key with no
present entry (sort keys embed a uniquifying row id), every visible delete
retracts a present entry. -/
def validRows (vis : Option (List Bool)) : Cache → Nat → List Row → Bool
  | _, _, [] => true
  | c, i, r :: rest =>
    if rowVisible vis i then
      match r.op with
      | Op.Insert | Op.UpdateInsert =>
        !(isLive c r.key) && validRows vis (doInsert c r.key (r.value.getD "")) (i + 1) rest
      | Op.Delete | Op.UpdateDelete =>
        isLive c r.key && validRows vis (doDelete c r.key) (i + 1) rest
    else validRows vis c (i + 1) rest

/-- Validity of a batch against a state: valid with respect to the cache as
it stands after the residency phase of `apply_batch`. -/
def validBatchB (store : Store) (st : AggState) (rows : List Row)
    (vis : Option (List Bool)) : Bool :=
  match applyBatchLoad store st with
  | some st1 => validRows vis st1.cache 0 rows
  | none => false

/-- The subsequence of batch rows that are visible under the mask, starting
the row index at `i`. -/
def visibleOnly (vis : Option (List Bool)) : Nat → List Row → List Row
  | _, [] => []
  | i, r :: rest =>
    if rowVisible vis i then r :: visibleOnly vis (i + 1) rest
    else visibleOnly vis (i + 1) rest

/-- Tracks the running `total_count` along the visible rows and checks that
it is strictly positive at the point each visible delete is applied. -/
def deletesSafe (vis : Option (List Bool)) : Nat → Nat → List Row → Bool
  | _, _, [] => true
  | n, i, r :: rest =>
    if rowVisible vis i then
      match r.op with
      | Op.Insert | Op.UpdateInsert => deletesSafe vis (n + 1) (i + 1) rest
      | Op.Delete | Op.UpdateDelete =>
        decide (0 < n) && deletesSafe vis (n - 1) (i + 1) rest
    else deletesSafe vis n (i + 1) rest

/-- Number of visible insert-kind rows from index `i` on. -/
def visInsCount (vis : Option (List Bool)) : Nat → List Row → Nat
  | _, [] => 0
  | i, r :: rest =>
    (if rowVisible vis i then
      match r.op with
      | Op.Insert | Op.UpdateInsert => 1
      | Op.Delete | Op.UpdateDelete => 0
    else 0) + visInsCount vis (i + 1) rest

/-- Number of visible delete-kind rows from index `i` on. -/
def visDelCount (vis : Option (List Bool)) : Nat → List Row → Nat
  | _, [] => 0
  | i, r :: rest =>
    (if rowVisible vis i then
      match r.op with
      | Op.Insert | Op.UpdateInsert => 0
      | Op.Delete | Op.UpdateDelete => 1
    else 0) + visDelCount vis (i + 1) rest

/-- A sequence of `apply_batch` calls, each without a visibility mask. -/
def applyBatches (store : Store) (st : AggState) (batches : List (List Row)) :
    Option AggState :=
  batches.foldlM (fun s b => applyBatch store s b none) st

/-- The write-batch operations a failing flush appends before returning: one
per cache entry up to (excluding) the first entry whose value fails to
serialize. -/
def flushPartial (ser : String → Option Bytes) :
    List (Bytes × FlushStatus) → List (Bytes × Option Bytes)
  | [] => []
  | (k, v) :: rest =>
    match v.asOption with
    | some val =>
      match ser val with
      | some b => (k, some b) :: flushPartial ser rest
      | none => []
    | none => (k, none) :: flushPartial ser rest

/-- States reachable through the public interface under the documented
contracts: construction with the externally persisted row count (spec
Invariant I3: the supplied count is the number of persisted rows), batches
valid per the upstream retraction-stream contract, and each flush paired
with the ingest of its write batch at the checkpoint boundary (§2 data
flow). -/
inductive Reachable : AggState → Store → Prop where
  | init (row_count : Nat) (delimiter : String) (store : Store)
      (hs : KeysSorted store) (hc : store.length = row_count) :
      Reachable (newState row_count delimiter) store
  | applyStep {st : AggState} {store : Store} {st' : AggState}
      (rows : List Row) (vis : Option (List Bool))
      (h : Reachable st store) (hv : validBatchB store st rows vis = true)
      (ha : applyBatch store st rows vis = some st') : Reachable st' store
  | outputStep {st : AggState} {store : Store} {st' : AggState}
      {out : Option String} (h : Reachable st store)
      (ho : getOutput store st = some (st', out)) : Reachable st' store
  | flushStep {st : AggState} {store : Store} {st' : AggState}
      {wb : List (Bytes × Option Bytes)} (h : Reachable st store)
      (hf : flush st [] = (st', wb)) : Reachable st' (ingestBatch store wb)

/-! ## Lemmas about the ordered association list -/

theorem kvGet_eq_none_iff {β : Type} (k : Bytes) (l : KVList β) :
    kvGet k l = none ↔ k ∉ kvKeys l := by
  induction l with
  | nil => simp [kvGet, kvKeys]
  | cons hd tl ih =>
    obtain ⟨k', v⟩ := hd
    by_cases h : k = k' <;> simp [kvGet, kvKeys, h] at ih ⊢ <;> simpa [kvKeys] using ih

theorem kvGet_some_mem_keys {β : Type} {k : Bytes} {l : KVList β} {v : β}
    (h : kvGet k l = some v) : k ∈ kvKeys l := by
  by_contra hmem
  rw [← kvGet_eq_none_iff] at hmem
  simp [hmem] at h

theorem kvGet_kvSet_self {β : Type} (k : Bytes) (v : β) (l : KVList β) :
    kvGet k (kvSet k v l) = some v := by
  induction l with
  | nil => simp [kvSet, kvGet]
  | cons hd tl ih =>
    obtain ⟨k', v'⟩ := hd
    rcases lt_trichotomy k k' with h | h | h
    · simp [kvSet, h, kvGet]
    · simp [kvSet, h, kvGet]
    · have h1 : ¬ k < k' := not_lt_of_gt h
      have h2 : k ≠ k' := ne_of_gt h
      simp [kvSet, h1, h2, kvGet, ih]

theorem kvGet_kvSet_ne {β : Type} {k k' : Bytes} (v : β) (l : KVList β)
    (h : k ≠ k') : kvGet k (kvSet k' v l) = kvGet k l := by
  induction l with
  | nil => simp [kvSet, kvGet, h]
  | cons hd tl ih =>
    obtain ⟨a, b⟩ := hd
    rcases lt_trichotomy k' a with hlt | heq | hgt
    · simp [kvSet, hlt, kvGet, h]
    · subst heq
      simp [kvSet, lt_irrefl, kvGet, h]
    · have h1 : ¬ k' < a := not_lt_of_gt hgt
      have h2 : k' ≠ a := ne_of_gt hgt
      by_cases hka : k = a <;> simp [kvSet, h1, h2, kvGet, hka, ih]

theorem kvGet_kvErase_ne {β : Type} {k k' : Bytes} (l : KVList β)
    (h : k ≠ k') : kvGet k (kvErase k' l) = kvGet k l := by
  induction l with
  | nil => simp [kvErase, kvGet]
  | cons hd tl ih =>
    obtain ⟨a, b⟩ := hd
    by_cases hk'a : k' = a
    · subst hk'a
      simp [kvErase, kvGet, h]
    · by_cases hka : k = a <;> simp [kvErase, hk'a, kvGet, hka, ih]

theorem kvErase_sublist {β : Type} (k : Bytes) (l : KVList β) :
    (kvErase k l).Sublist l := by
  induction l with
  | nil => simp [kvErase]
  | cons hd tl ih =>
    obtain ⟨a, b⟩ := hd
    by_cases h : k = a
    · simpa [kvErase, h] using List.sublist_cons_self (a, b) tl
    · simpa [kvErase, h] using ih.cons₂ (a, b)

theorem kvGet_kvErase_self {β : Type} {k : Bytes} {l : KVList β}
    (hnd : (kvKeys l).Nodup) : kvGet k (kvErase k l) = none := by
  induction l with
  | nil => simp [kvErase, kvGet]
  | cons hd tl ih =>
    obtain ⟨a, b⟩ := hd
    simp only [kvKeys, List.map_cons, List.nodup_cons] at hnd
    by_cases h : k = a
    · subst h
      simp only [kvErase, if_pos rfl]
      rw [kvGet_eq_none_iff]
      exact hnd.1
    · simp [kvErase, h, kvGet, ih hnd.2]

theorem mem_kvKeys_kvSet {β : Type} (a k : Bytes) (v : β) (l : KVList β) :
    a ∈ kvKeys (kvSet k v l) ↔ a = k ∨ a ∈ kvKeys l := by
  induction l with
  | nil => simp [kvSet, kvKeys]
  | cons hd tl ih =>
    obtain ⟨k', v'⟩ := hd
    rcases lt_trichotomy k k' with h | h | h
    · simp [kvSet, h, kvKeys]
    · subst h
      simp [kvSet, lt_irrefl, kvKeys]
    · have h1 : ¬ k < k' := not_lt_of_gt h
      have h2 : k ≠ k' := ne_of_gt h
      simp [kvSet, h1, h2, kvKeys] at ih ⊢
      tauto

theorem keysSorted_nodup {β : Type} {l : KVList β} (h : KeysSorted l) :
    (kvKeys l).Nodup :=
  h.imp (fun hab => ne_of_lt hab)

theorem keysSorted_kvSet {β : Type} {l : KVList β} (k : Bytes) (v : β)
    (h : KeysSorted l) : KeysSorted (kvSet k v l) := by
  induction l with
  | nil => simp [kvSet, KeysSorted, kvKeys]
  | cons hd tl ih =>
    obtain ⟨k', v'⟩ := hd
    simp only [KeysSorted, kvKeys, List.map_cons, List.pairwise_cons] at h
    rcases lt_trichotomy k k' with hlt | heq | hgt
    · simp only [kvSet, if_pos hlt, KeysSorted, kvKeys, List.map_cons,
        List.pairwise_cons]
      refine ⟨?_, h.1, h.2⟩
      intro a ha
      simp only [List.map_cons, List.mem_cons] at ha
      rcases ha with rfl | ha
      · exact hlt
      · exact lt_trans hlt (h.1 a ha)
    · subst heq
      simp only [kvSet, lt_irrefl, if_false, if_pos rfl, if_true, eq_self_iff_true,
        KeysSorted, kvKeys, List.map_cons, List.pairwise_cons]
      exact ⟨h.1, h.2⟩
    · have h1 : ¬ k < k' := not_lt_of_gt hgt
      have h2 : k ≠ k' := ne_of_gt hgt
      simp only [kvSet, if_neg h1, if_neg h2, KeysSorted, kvKeys, List.map_cons,
        List.pairwise_cons]
      constructor
      · intro a ha
        rw [show (kvSet k v tl).map Prod.fst = kvKeys (kvSet k v tl) from rfl] at ha
        rcases (mem_kvKeys_kvSet a k v tl).mp ha with rfl | ha
        · exact hgt
        · exact h.1 a ha
      · exact ih h.2

theorem keysSorted_kvErase {β : Type} {l : KVList β} (k : Bytes)
    (h : KeysSorted l) : KeysSorted (kvErase k l) :=
  List.Pairwise.sublist ((kvErase_sublist k l).map Prod.fst) h

theorem keysSorted_tail {β : Type} {hd : Bytes × β} {tl : KVList β}
    (h : KeysSorted (hd :: tl)) : KeysSorted tl := by
  simp only [KeysSorted, kvKeys, List.map_cons, List.pairwise_cons] at h
  exact h.2

theorem kvGet_none_of_forall_lt {β : Type} {k : Bytes} {l : KVList β}
    (h : ∀ a ∈ kvKeys l, k < a) : kvGet k l = none := by
  rw [kvGet_eq_none_iff]
  intro hmem
  exact lt_irrefl k (h k hmem)

theorem kvList_ext {β : Type} : ∀ {l1 l2 : KVList β}, KeysSorted l1 →
    KeysSorted l2 → (∀ k, kvGet k l1 = kvGet k l2) → l1 = l2
  | [], [], _, _, _ => rfl
  | [], (k2, v2) :: t2, _, _, hget => by
    have := hget k2
    simp [kvGet] at this
  | (k1, v1) :: t1, [], _, _, hget => by
    have := hget k1
    simp [kvGet] at this
  | (k1, v1) :: t1, (k2, v2) :: t2, h1, h2, hget => by
    simp only [KeysSorted, kvKeys, List.map_cons, List.pairwise_cons] at h1 h2
    have hk : k1 = k2 := by
      by_contra hne
      have g1 := hget k1
      have g2 := hget k2
      simp only [kvGet, if_pos rfl, if_neg hne, if_neg (Ne.symm hne)] at g1 g2
      have hm1 : k1 ∈ kvKeys t2 := kvGet_some_mem_keys g1.symm
      have hm2 : k2 ∈ kvKeys t1 := kvGet_some_mem_keys g2
      exact absurd (lt_trans (h1.1 k2 hm2) (h2.1 k1 hm1)) (lt_irrefl k1)
    subst hk
    have hv : v1 = v2 := by
      have := hget k1
      simpa [kvGet] using this
    subst hv
    have htails : ∀ k, kvGet k t1 = kvGet k t2 := by
      intro k
      by_cases hk1 : k = k1
      · subst hk1
        rw [kvGet_none_of_forall_lt h1.1, kvGet_none_of_forall_lt h2.1]
      · have := hget k
        simpa [kvGet, hk1] using this
    rw [kvList_ext h1.2 h2.2 htails]

theorem kvGet_entryMap {β γ : Type} (f : β → γ) (k : Bytes) (l : KVList β) :
    kvGet k (l.map (fun kv => (kv.1, f kv.2))) = (kvGet k l).map f := by
  induction l with
  | nil => simp [kvGet]
  | cons hd tl ih =>
    obtain ⟨a, b⟩ := hd
    by_cases h : k = a <;> simp [kvGet, h, ih]

theorem kvKeys_entryMap {β γ : Type} (f : β → γ) (l : KVList β) :
    kvKeys (l.map (fun kv => (kv.1, f kv.2))) = kvKeys l := by
  simp [kvKeys, List.map_map]

theorem length_kvSet_of_not_mem {β : Type} {k : Bytes} (v : β) {l : KVList β}
    (h : k ∉ kvKeys l) : (kvSet k v l).length = l.length + 1 := by
  induction l with
  | nil => simp [kvSet]
  | cons hd tl ih =>
    obtain ⟨a, b⟩ := hd
    simp only [kvKeys, List.map_cons, List.mem_cons, not_or] at h
    rcases lt_trichotomy k a with hlt | heq | hgt
    · simp [kvSet, hlt]
    · exact absurd heq h.1
    · have h1 : ¬ k < a := not_lt_of_gt hgt
      simp [kvSet, h1, h.1, ih h.2]

theorem length_kvSet_of_mem {β : Type} {k : Bytes} (v : β) {l : KVList β}
    (hs : KeysSorted l) (h : k ∈ kvKeys l) : (kvSet k v l).length = l.length := by
  induction l with
  | nil => simp [kvKeys] at h
  | cons hd tl ih =>
    obtain ⟨a, b⟩ := hd
    simp only [KeysSorted, kvKeys, List.map_cons, List.pairwise_cons] at hs
    rcases lt_trichotomy k a with hlt | heq | hgt
    · exfalso
      simp only [kvKeys, List.map_cons, List.mem_cons] at h
      rcases h with rfl | h
      · exact lt_irrefl k hlt
      · exact absurd (lt_trans hlt (hs.1 k h)) (lt_irrefl k)
    · subst heq
      simp [kvSet, lt_irrefl]
    · have h1 : ¬ k < a := not_lt_of_gt hgt
      have h2 : k ≠ a := ne_of_gt hgt
      simp only [kvKeys, List.map_cons, List.mem_cons] at h
      rcases h with rfl | h
      · exact absurd rfl h2
      · simp [kvSet, h1, h2, ih hs.2 h]

theorem length_kvErase_of_mem {β : Type} {k : Bytes} {l : KVList β}
    (h : k ∈ kvKeys l) : (kvErase k l).length + 1 = l.length := by
  induction l with
  | nil => simp [kvKeys] at h
  | cons hd tl ih =>
    obtain ⟨a, b⟩ := hd
    by_cases hk : k = a
    · simp [kvErase, hk]
    · simp only [kvKeys, List.map_cons, List.mem_cons] at h
      rcases h with rfl | h
      · exact absurd rfl hk
      · simp [kvErase, hk, ← ih h]

theorem kvSet_of_forall_lt {β : Type} {k : Bytes} (v : β) {l : KVList β}
    (h : ∀ a ∈ kvKeys l, a < k) : kvSet k v l = l ++ [(k, v)] := by
  induction l with
  | nil => simp [kvSet]
  | cons hd tl ih =>
    obtain ⟨a, b⟩ := hd
    simp only [kvKeys, List.map_cons, List.mem_cons] at h
    have ha : a < k := h a (Or.inl rfl)
    have h1 : ¬ k < a := not_lt_of_gt ha
    have h2 : k ≠ a := ne_of_gt ha
    simp only [kvSet, if_neg h1, if_neg h2, List.cons_append]
    rw [ih (fun x hx => h x (Or.inr hx))]

theorem kvErase_kvSet_cancel {β : Type} {k : Bytes} (v : β) {l : KVList β}
    (h : k ∉ kvKeys l) : kvErase k (kvSet k v l) = l := by
  induction l with
  | nil => simp [kvSet, kvErase]
  | cons hd tl ih =>
    obtain ⟨a, b⟩ := hd
    simp only [kvKeys, List.map_cons, List.mem_cons, not_or] at h
    rcases lt_trichotomy k a with hlt | heq | hgt
    · simp [kvSet, hlt, kvErase, h.1]
    · exact absurd heq h.1
    · have h1 : ¬ k < a := not_lt_of_gt hgt
      simp [kvSet, h1, h.1, kvErase, Ne.symm (ne_of_gt hgt), ih h.2]

theorem countLive_nil : countLive [] = 0 := rfl

theorem countLive_cons (a : Bytes) (b : FlushStatus) (l : Cache) :
    countLive ((a, b) :: l) = bitOf (some b) + countLive l := by
  cases b <;> simp [countLive, liveVals, bitOf, FlushStatus.asOption, Nat.add_comm]

theorem countLive_le_length (l : Cache) : countLive l ≤ l.length := by
  induction l with
  | nil => simp [countLive_nil]
  | cons hd tl ih =>
    obtain ⟨a, b⟩ := hd
    have : bitOf (some b) ≤ 1 := by cases b <;> simp [bitOf, FlushStatus.asOption]
    calc countLive ((a, b) :: tl) = bitOf (some b) + countLive tl :=
          countLive_cons a b tl
      _ ≤ 1 + tl.length := Nat.add_le_add this ih
      _ = ((a, b) :: tl).length := by simp [Nat.add_comm]

theorem countLive_kvSet {l : Cache} (hs : KeysSorted l) (k : Bytes)
    (v : FlushStatus) :
    countLive (kvSet k v l) + bitOf (kvGet k l) = countLive l + bitOf (some v) := by
  induction l with
  | nil => simp [kvSet, countLive_cons, countLive_nil, kvGet, bitOf]
  | cons hd tl ih =>
    obtain ⟨a, b⟩ := hd
    simp only [KeysSorted, kvKeys, List.map_cons, List.pairwise_cons] at hs
    rcases lt_trichotomy k a with hlt | heq | hgt
    · have hget : kvGet k ((a, b) :: tl) = none := by
        rw [kvGet_eq_none_iff]
        intro hmem
        simp only [kvKeys, List.map_cons, List.mem_cons] at hmem
        rcases hmem with rfl | hmem
        · exact lt_irrefl k hlt
        · exact absurd (lt_trans hlt (hs.1 k hmem)) (lt_irrefl k)
      simp [kvSet, hlt, countLive_cons, hget, bitOf]
      ring
    · subst heq
      simp [kvSet, lt_irrefl, countLive_cons, kvGet]
      ring
    · have h1 : ¬ k < a := not_lt_of_gt hgt
      have h2 : k ≠ a := ne_of_gt hgt
      have := ih hs.2
      simp only [kvSet, if_neg h1, if_neg h2, countLive_cons, kvGet, if_neg h2]
      omega

theorem countLive_kvErase {l : Cache} (hs : KeysSorted l) (k : Bytes) :
    countLive (kvErase k l) + bitOf (kvGet k l) = countLive l := by
  induction l with
  | nil => simp [kvErase, countLive_nil, kvGet, bitOf]
  | cons hd tl ih =>
    obtain ⟨a, b⟩ := hd
    simp only [KeysSorted, kvKeys, List.map_cons, List.pairwise_cons] at hs
    by_cases hk : k = a
    · subst hk
      have hget : kvGet k tl = none :=
        kvGet_none_of_forall_lt hs.1
      simp [kvErase, kvGet, countLive_cons]
      ring
    · have := ih hs.2
      simp only [kvErase, if_neg hk, countLive_cons, kvGet, if_neg hk]
      omega

/-! ## Serialization round trip and loading -/

theorem deserialize_serialize (s : String) :
    deserializeValue (serializeValue s) = s := by
  obtain ⟨d⟩ := s
  simp only [deserializeValue, serializeValue, List.map_map]
  congr 1
  induction d with
  | nil => rfl
  | cons c cs ih => simp [Function.comp, Char.ofNat_toNat, ih]

theorem kvKeys_loadCache (store : Store) :
    kvKeys (loadCache store) = kvKeys store :=
  kvKeys_entryMap (fun b => FlushStatus.DeleteInsert (deserializeValue b)) store

theorem keysSorted_loadCache {store : Store} (hs : KeysSorted store) :
    KeysSorted (loadCache store) := by
  unfold KeysSorted
  rw [kvKeys_loadCache]
  exact hs

theorem kvGet_loadCache (k : Bytes) (store : Store) :
    kvGet k (loadCache store) =
      (kvGet k store).map (fun b => FlushStatus.DeleteInsert (deserializeValue b)) :=
  kvGet_entryMap (fun b => FlushStatus.DeleteInsert (deserializeValue b)) k store

theorem length_loadCache (store : Store) :
    (loadCache store).length = store.length := by
  simp [loadCache]

theorem liveVals_loadCache (store : Store) :
    liveVals (loadCache store) = storeVals store := by
  induction store with
  | nil => rfl
  | cons hd tl ih =>
    simp [liveVals, loadCache, storeVals, FlushStatus.asOption] at ih ⊢
    exact ih

theorem countLive_loadCache (store : Store) :
    countLive (loadCache store) = store.length := by
  rw [countLive, liveVals_loadCache]
  simp [storeVals]

theorem load_foldl (store : Store) :
    ∀ c : Cache, KeysSorted store →
    (∀ x ∈ kvKeys c, ∀ y ∈ kvKeys store, x < y) →
    store.foldl (fun c kv =>
      kvSet kv.1 (FlushStatus.DeleteInsert (deserializeValue kv.2)) c) c =
      c ++ loadCache store := by
  induction store with
  | nil => intro c _ _; simp [loadCache]
  | cons hd tl ih =>
    intro c hs hbound
    obtain ⟨k, v⟩ := hd
    simp only [KeysSorted, kvKeys, List.map_cons, List.pairwise_cons] at hs
    have hset : kvSet k (FlushStatus.DeleteInsert (deserializeValue v)) c =
        c ++ [(k, FlushStatus.DeleteInsert (deserializeValue v))] := by
      apply kvSet_of_forall_lt
      intro a ha
      exact hbound a ha k (by simp [kvKeys])
    simp only [List.foldl_cons, hset]
    rw [ih (c ++ [(k, FlushStatus.DeleteInsert (deserializeValue v))]) hs.2 ?_]
    · simp [loadCache]
    · intro x hx y hy
      simp only [kvKeys, List.map_append, List.mem_append, List.map_cons,
        List.mem_singleton] at hx
      rcases hx with hx | hx
      · exact hbound x hx y (List.mem_cons_of_mem k hy)
      · simp only [List.map_cons, List.mem_cons] at hx
        rcases hx with rfl | hx
        · exact hs.1 y hy
        · simp at hx

theorem readAll_of_clean_empty {store : Store} {st : AggState}
    (hd : st.dirty = false) (hc : st.cache = []) (hs : KeysSorted store) :
    readAllIntoMemory store st =
      some { st with cache := loadCache store, dirty := false } := by
  unfold readAllIntoMemory
  rw [hd, hc]
  simp only [Bool.false_eq_true, if_false]
  rw [load_foldl store [] hs (by simp [kvKeys])]
  simp

/-! ## Lemmas about the flushed image of the cache -/

theorem liveStore_cons (a : Bytes) (b : FlushStatus) (tl : Cache) :
    liveStore ((a, b) :: tl) =
      match b.asOption with
      | some v => (a, serializeValue v) :: liveStore tl
      | none => liveStore tl := by
  cases b <;> rfl

theorem kvKeys_liveStore_sublist (c : Cache) :
    (kvKeys (liveStore c)).Sublist (kvKeys c) := by
  induction c with
  | nil => simp [liveStore, kvKeys]
  | cons hd tl ih =>
    obtain ⟨a, b⟩ := hd
    cases b with
    | Insert v =>
      simpa [liveStore, kvKeys, FlushStatus.asOption] using ih.cons₂ a
    | Delete =>
      simpa [liveStore, kvKeys, FlushStatus.asOption] using ih.cons a
    | DeleteInsert v =>
      simpa [liveStore, kvKeys, FlushStatus.asOption] using ih.cons₂ a

theorem keysSorted_liveStore {c : Cache} (hc : KeysSorted c) :
    KeysSorted (liveStore c) :=
  List.Pairwise.sublist (kvKeys_liveStore_sublist c) hc

theorem kvGet_liveStore {c : Cache} (hnd : (kvKeys c).Nodup) (k : Bytes) :
    kvGet k (liveStore c) =
      (kvGet k c).bind (fun fs => fs.asOption.map serializeValue) := by
  induction c with
  | nil => simp [liveStore, kvGet]
  | cons hd tl ih =>
    obtain ⟨a, b⟩ := hd
    simp only [kvKeys, List.map_cons, List.nodup_cons] at hnd
    rw [liveStore_cons]
    by_cases hk : k = a
    · subst hk
      cases hb : b.asOption with
      | some v =>
        simp [hb, kvGet]
      | none =>
        have hnone : kvGet k (liveStore tl) = none := by
          rw [kvGet_eq_none_iff]
          intro hmem
          exact hnd.1 ((kvKeys_liveStore_sublist tl).subset hmem)
        simp [hb, kvGet, hnone]
    · cases hb : b.asOption with
      | some v => simp [hb, kvGet, hk, ih hnd.2]
      | none => simp [hb, kvGet, hk, ih hnd.2]

theorem storeVals_liveStore (c : Cache) :
    storeVals (liveStore c) = liveVals c := by
  induction c with
  | nil => rfl
  | cons hd tl ih =>
    obtain ⟨a, b⟩ := hd
    rw [liveStore_cons]
    cases b <;>
      simp_all [storeVals, liveVals, FlushStatus.asOption, deserialize_serialize]

theorem length_liveStore (c : Cache) :
    (liveStore c).length = countLive c := by
  induction c with
  | nil => rfl
  | cons hd tl ih =>
    obtain ⟨a, b⟩ := hd
    rw [liveStore_cons]
    cases b <;>
      simp [countLive_cons, bitOf, FlushStatus.asOption, ih, Nat.add_comm]

/-! ## Lemmas about flush -/

theorem flushLoop_total (l : List (Bytes × FlushStatus)) :
    ∀ wb, flushLoop (fun s => some (serializeValue s)) l wb =
      Except.ok (wb ++ l.map entryToWriteOp) := by
  induction l with
  | nil => intro wb; simp [flushLoop]
  | cons hd tl ih =>
    intro wb
    obtain ⟨k, v⟩ := hd
    cases hv : v.asOption with
    | some val => simp [flushLoop, hv, ih, entryToWriteOp]
    | none => simp [flushLoop, hv, ih, entryToWriteOp]

theorem flush_spec (st : AggState) (wb : List (Bytes × Option Bytes)) :
    flush st wb =
      if st.dirty then
        ({ st with cache := [], dirty := false }, wb ++ st.cache.map entryToWriteOp)
      else (st, wb) := by
  unfold flush flushWith
  by_cases hd : st.dirty
  · simp [hd, flushLoop_total]
  · simp [hd]

theorem flushLoop_error {ser : String → Option Bytes} :
    ∀ (l : List (Bytes × FlushStatus)) (wb wb' : List (Bytes × Option Bytes)),
    flushLoop ser l wb = Except.error wb' → wb' = wb ++ flushPartial ser l := by
  intro l
  induction l with
  | nil => intro wb wb' h; simp [flushLoop] at h
  | cons hd tl ih =>
    intro wb wb' h
    obtain ⟨k, v⟩ := hd
    cases hv : v.asOption with
    | some val =>
      cases hser : ser val with
      | some b =>
        simp only [flushLoop, hv, hser] at h
        rw [ih _ _ h]
        simp [flushPartial, hv, hser]
      | none =>
        simp only [flushLoop, hv, hser, Except.error.injEq] at h
        simp [flushPartial, hv, hser, ← h]
    | none =>
      simp only [flushLoop, hv] at h
      rw [ih _ _ h]
      simp [flushPartial, hv]

/-! ## Lemmas about ingesting a write batch -/

theorem keysSorted_ingestBatch {store : Store}
    (ops : List (Bytes × Option Bytes)) (hs : KeysSorted store) :
    KeysSorted (ingestBatch store ops) := by
  induction ops generalizing store with
  | nil => simpa [ingestBatch] using hs
  | cons hd tl ih =>
    obtain ⟨k, o⟩ := hd
    cases o with
    | some v =>
      simpa [ingestBatch] using ih (keysSorted_kvSet k v hs)
    | none =>
      simpa [ingestBatch] using ih (keysSorted_kvErase k hs)

theorem kvGet_ingestBatch_not_mem {k : Bytes} :
    ∀ (ops : List (Bytes × Option Bytes)) (store : Store),
    k ∉ kvKeys ops → kvGet k (ingestBatch store ops) = kvGet k store := by
  intro ops
  induction ops with
  | nil => intro store _; rfl
  | cons hd tl ih =>
    intro store hmem
    obtain ⟨k0, o⟩ := hd
    simp only [kvKeys, List.map_cons, List.mem_cons, not_or] at hmem
    cases o with
    | some v =>
      rw [show ingestBatch store ((k0, some v) :: tl) =
        ingestBatch (kvSet k0 v store) tl from rfl]
      rw [ih (kvSet k0 v store) hmem.2, kvGet_kvSet_ne v store hmem.1]
    | none =>
      rw [show ingestBatch store ((k0, none) :: tl) =
        ingestBatch (kvErase k0 store) tl from rfl]
      rw [ih (kvErase k0 store) hmem.2, kvGet_kvErase_ne store hmem.1]

theorem kvGet_ingestBatch {k : Bytes} :
    ∀ (ops : List (Bytes × Option Bytes)) (store : Store),
    KeysSorted store → (kvKeys ops).Nodup →
    kvGet k (ingestBatch store ops) =
      (match kvGet k ops with
      | some (some v) => some v
      | some none => none
      | none => kvGet k store) := by
  intro ops
  induction ops with
  | nil => intro store _ _; rfl
  | cons hd tl ih =>
    intro store hs hnd
    obtain ⟨k0, o⟩ := hd
    simp only [kvKeys, List.map_cons, List.nodup_cons] at hnd
    by_cases hk : k = k0
    · subst hk
      cases o with
      | some v =>
        rw [show ingestBatch store ((k, some v) :: tl) =
          ingestBatch (kvSet k v store) tl from rfl]
        rw [kvGet_ingestBatch_not_mem tl (kvSet k v store) hnd.1,
          kvGet_kvSet_self]
        simp [kvGet]
      | none =>
        rw [show ingestBatch store ((k, none) :: tl) =
          ingestBatch (kvErase k store) tl from rfl]
        rw [kvGet_ingestBatch_not_mem tl (kvErase k store) hnd.1,
          kvGet_kvErase_self (keysSorted_nodup hs)]
        simp [kvGet]
    · cases o with
      | some v =>
        rw [show ingestBatch store ((k0, some v) :: tl) =
          ingestBatch (kvSet k0 v store) tl from rfl]
        rw [ih (kvSet k0 v store) (keysSorted_kvSet k0 v hs) hnd.2,
          kvGet_kvSet_ne v store hk]
        simp [kvGet, hk]
      | none =>
        rw [show ingestBatch store ((k0, none) :: tl) =
          ingestBatch (kvErase k0 store) tl from rfl]
        rw [ih (kvErase k0 store) (keysSorted_kvErase k0 hs) hnd.2,
          kvGet_kvErase_ne store hk]
        simp [kvGet, hk]

theorem storeCovered_spec {c : Cache} {store : Store}
    (h : storeCovered c store = true) {k : Bytes} (hk : k ∈ kvKeys store) :
    kvGet k c = some FlushStatus.Delete ∨
      ∃ v, kvGet k c = some (FlushStatus.DeleteInsert v) := by
  simp only [kvKeys, List.mem_map] at hk
  obtain ⟨kv, hkv, rfl⟩ := hk
  rw [storeCovered, List.all_eq_true] at h
  have := h kv hkv
  cases hget : kvGet kv.1 c with
  | none => rw [hget] at this; simp at this
  | some fs =>
    cases fs with
    | Insert v => rw [hget] at this; simp at this
    | Delete => exact Or.inl rfl
    | DeleteInsert v => exact Or.inr ⟨v, rfl⟩

theorem kvKeys_entryWriteOps (c : Cache) :
    kvKeys (c.map entryToWriteOp) = kvKeys c := by
  have : c.map entryToWriteOp =
      c.map (fun kv => (kv.1, kv.2.asOption.map serializeValue)) := by
    simp [entryToWriteOp]
  rw [this]
  exact kvKeys_entryMap (fun fs => fs.asOption.map serializeValue) c

theorem kvGet_entryWriteOps (k : Bytes) (c : Cache) :
    kvGet k (c.map entryToWriteOp) =
      (kvGet k c).map (fun fs => fs.asOption.map serializeValue) := by
  have : c.map entryToWriteOp =
      c.map (fun kv => (kv.1, kv.2.asOption.map serializeValue)) := by
    simp [entryToWriteOp]
  rw [this]
  exact kvGet_entryMap (fun fs => fs.asOption.map serializeValue) k c

theorem ingest_flush_ops {c : Cache} {store : Store} (hc : KeysSorted c)
    (hs : KeysSorted store) (hcov : storeCovered c store = true) :
    ingestBatch store (c.map entryToWriteOp) = liveStore c := by
  apply kvList_ext (keysSorted_ingestBatch _ hs) (keysSorted_liveStore hc)
  intro k
  rw [kvGet_ingestBatch (c.map entryToWriteOp) store hs
    (by rw [kvKeys_entryWriteOps]; exact keysSorted_nodup hc)]
  rw [kvGet_entryWriteOps, kvGet_liveStore (keysSorted_nodup hc)]
  cases hget : kvGet k c with
  | none =>
    have hst : kvGet k store = none := by
      rw [kvGet_eq_none_iff]
      intro hmem
      rcases storeCovered_spec hcov hmem with h | ⟨v, h⟩ <;>
        simp [hget] at h
    simp [hst]
  | some fs =>
    cases fs <;> simp [FlushStatus.asOption]

/-! ## Lemmas about the state operations -/

theorem concat_of_result_some {st : AggState} {r : String}
    (h : st.result = some r) : concatStringsInCacheIntoResult st = st := by
  simp [concatStringsInCacheIntoResult, h]

theorem concat_of_count_zero {st : AggState} (hr : st.result = none)
    (h : st.total_count = 0) : concatStringsInCacheIntoResult st = st := by
  simp [concatStringsInCacheIntoResult, hr, h]

theorem concat_set {st : AggState} (hr : st.result = none)
    (h : st.total_count ≠ 0) :
    concatStringsInCacheIntoResult st =
      { st with result := some (String.intercalate st.delimiter
          (liveVals st.cache)) } := by
  simp [concatStringsInCacheIntoResult, hr, h, liveVals]

theorem storeCovered_loadCache (store : Store) :
    storeCovered (loadCache store) store = true := by
  rw [storeCovered, List.all_eq_true]
  intro kv hkv
  have hmem : kv.1 ∈ kvKeys store := by
    simp only [kvKeys, List.mem_map]
    exact ⟨kv, hkv, rfl⟩
  have : kvGet kv.1 store ≠ none := by
    intro hnone
    rw [kvGet_eq_none_iff] at hnone
    exact hnone hmem
  cases hget : kvGet kv.1 store with
  | none => exact absurd hget this
  | some v => simp [kvGet_loadCache, hget]

theorem storeCovered_empty_cache {store : Store}
    (h : storeCovered ([] : Cache) store = true) : store = [] := by
  cases store with
  | nil => rfl
  | cons hd tl =>
    rw [storeCovered, List.all_eq_true] at h
    have := h hd (List.mem_cons_self hd tl)
    simp [kvGet] at this

theorem bitOf_le_countLive {c : Cache} (hnd : (kvKeys c).Nodup) (k : Bytes) :
    bitOf (kvGet k c) ≤ countLive c := by
  induction c with
  | nil => simp [kvGet, bitOf, countLive_nil]
  | cons hd tl ih =>
    obtain ⟨a, b⟩ := hd
    simp only [kvKeys, List.map_cons, List.nodup_cons] at hnd
    rw [countLive_cons]
    by_cases hk : k = a
    · subst hk
      simp only [kvGet, if_pos rfl]
      exact Nat.le_add_right _ _
    · simp only [kvGet, if_neg hk]
      exact le_trans (ih hnd.2) (Nat.le_add_left _ _)

theorem isLive_one_le_countLive {c : Cache} (hnd : (kvKeys c).Nodup)
    {k : Bytes} (h : isLive c k = true) : 1 ≤ countLive c := by
  have hb : bitOf (kvGet k c) = 1 := by
    unfold isLive at h
    cases hget : kvGet k c with
    | none => rw [hget] at h; simp at h
    | some fs =>
      rw [hget] at h
      cases fs <;> simp_all [bitOf, FlushStatus.asOption]
  calc 1 = bitOf (kvGet k c) := hb.symm
    _ ≤ countLive c := bitOf_le_countLive hnd k

theorem countLive_doInsert_not_live {c : Cache} (hc : KeysSorted c)
    {k : Bytes} (h : isLive c k = false) (v : String) :
    countLive (doInsert c k v) = countLive c + 1 := by
  unfold isLive at h
  cases hget : kvGet k c with
  | none =>
    have := countLive_kvSet hc k (FlushStatus.Insert v)
    rw [hget] at this
    simp only [doInsert, hget]
    simp [bitOf, FlushStatus.asOption] at this
    omega
  | some fs =>
    rw [hget] at h
    cases fs with
    | Insert w => simp [FlushStatus.asOption] at h
    | Delete =>
      have := countLive_kvSet hc k (FlushStatus.DeleteInsert v)
      rw [hget] at this
      simp only [doInsert, hget]
      simp [bitOf, FlushStatus.asOption] at this
      omega
    | DeleteInsert w => simp [FlushStatus.asOption] at h

theorem countLive_doDelete_live {c : Cache} (hc : KeysSorted c)
    {k : Bytes} (h : isLive c k = true) :
    countLive (doDelete c k) + 1 = countLive c := by
  unfold isLive at h
  cases hget : kvGet k c with
  | none => rw [hget] at h; simp at h
  | some fs =>
    rw [hget] at h
    cases fs with
    | Insert w =>
      have := countLive_kvErase hc k
      rw [hget] at this
      simp only [doDelete, hget]
      simp [bitOf, FlushStatus.asOption] at this
      omega
    | Delete => simp [FlushStatus.asOption] at h
    | DeleteInsert w =>
      have := countLive_kvSet hc k FlushStatus.Delete
      rw [hget] at this
      simp only [doDelete, hget]
      simp [bitOf, FlushStatus.asOption] at this
      omega

theorem keysSorted_doInsert {c : Cache} (hc : KeysSorted c) (k : Bytes)
    (v : String) : KeysSorted (doInsert c k v) := by
  unfold doInsert
  cases kvGet k c with
  | none => exact keysSorted_kvSet _ _ hc
  | some fs => cases fs <;> exact keysSorted_kvSet _ _ hc

theorem keysSorted_doDelete {c : Cache} (hc : KeysSorted c) (k : Bytes) :
    KeysSorted (doDelete c k) := by
  unfold doDelete
  cases kvGet k c with
  | none => exact keysSorted_kvSet _ _ hc
  | some fs =>
    cases fs with
    | Insert v => exact keysSorted_kvErase _ hc
    | Delete => exact hc
    | DeleteInsert v => exact keysSorted_kvSet _ _ hc

theorem storeCovered_doInsert {c : Cache} {store : Store}
    (hcov : storeCovered c store = true) {k : Bytes}
    (h : isLive c k = false) (v : String) :
    storeCovered (doInsert c k v) store = true := by
  rw [storeCovered, List.all_eq_true] at hcov ⊢
  intro kv hkv
  have hold := hcov kv hkv
  by_cases hk : kv.1 = k
  · rw [hk] at hold ⊢
    unfold isLive at h
    cases hget : kvGet k c with
    | none => rw [hget] at hold; simp at hold
    | some fs =>
      rw [hget] at hold h
      cases fs with
      | Insert w => simp at hold
      | Delete =>
        simp only [doInsert, hget]
        rw [kvGet_kvSet_self]
      | DeleteInsert w => simp [FlushStatus.asOption] at h
  · unfold doInsert
    cases kvGet k c with
    | none => rw [kvGet_kvSet_ne _ _ hk]; exact hold
    | some fs =>
      cases fs <;> rw [kvGet_kvSet_ne _ _ hk] <;> exact hold

theorem storeCovered_doDelete {c : Cache} {store : Store}
    (hcov : storeCovered c store = true) {k : Bytes}
    (h : isLive c k = true) :
    storeCovered (doDelete c k) store = true := by
  rw [storeCovered, List.all_eq_true] at hcov ⊢
  intro kv hkv
  have hold := hcov kv hkv
  by_cases hk : kv.1 = k
  · rw [hk] at hold ⊢
    unfold isLive at h
    cases hget : kvGet k c with
    | none => rw [hget] at hold; simp at hold
    | some fs =>
      rw [hget] at hold h
      cases fs with
      | Insert w => simp at hold
      | Delete => simp [FlushStatus.asOption] at h
      | DeleteInsert w =>
        simp only [doDelete, hget]
        rw [kvGet_kvSet_self]
  · unfold doDelete
    cases kvGet k c with
    | none => rw [kvGet_kvSet_ne _ _ hk]; exact hold
    | some fs =>
      cases fs with
      | Insert w => rw [kvGet_kvErase_ne _ hk]; exact hold
      | Delete => exact hold
      | DeleteInsert w => rw [kvGet_kvSet_ne _ _ hk]; exact hold

theorem applyOp_delimiter (st : AggState) (r : Row) :
    (applyOp st r).delimiter = st.delimiter := by
  unfold applyOp
  cases r.op <;> rfl

theorem applyOp_dirty (st : AggState) (r : Row) :
    (applyOp st r).dirty = true := by
  unfold applyOp
  cases r.op <;> rfl

theorem applyOp_result (st : AggState) (r : Row) :
    (applyOp st r).result = none := by
  unfold applyOp
  cases r.op <;> rfl

theorem applyRowsFrom_delimiter (vis : Option (List Bool)) :
    ∀ (rows : List Row) (i : Nat) (st : AggState),
    (applyRowsFrom vis i st rows).delimiter = st.delimiter := by
  intro rows
  induction rows with
  | nil => intro i st; rfl
  | cons r rest ih =>
    intro i st
    rw [applyRowsFrom]
    by_cases hv : rowVisible vis i
    · rw [if_pos hv, ih, applyOp_delimiter]
    · rw [if_neg hv, ih]

theorem applyRowsFrom_cases (vis : Option (List Bool)) :
    ∀ (rows : List Row) (i : Nat) (st : AggState),
    applyRowsFrom vis i st rows = st ∨
      ((applyRowsFrom vis i st rows).dirty = true ∧
        (applyRowsFrom vis i st rows).result = none) := by
  intro rows
  induction rows with
  | nil => intro i st; exact Or.inl rfl
  | cons r rest ih =>
    intro i st
    rw [applyRowsFrom]
    by_cases hv : rowVisible vis i
    · rw [if_pos hv]
      rcases ih (i + 1) (applyOp st r) with heq | hd
      · rw [heq]
        exact Or.inr ⟨applyOp_dirty st r, applyOp_result st r⟩
      · exact Or.inr hd
    · rw [if_neg hv]
      exact ih (i + 1) st

theorem applyRowsFrom_fold {store : Store} (vis : Option (List Bool)) :
    ∀ (rows : List Row) (i : Nat) (st : AggState),
    KeysSorted st.cache → storeCovered st.cache store = true →
    countLive st.cache = st.total_count →
    validRows vis st.cache i rows = true →
    KeysSorted (applyRowsFrom vis i st rows).cache ∧
      storeCovered (applyRowsFrom vis i st rows).cache store = true ∧
      countLive (applyRowsFrom vis i st rows).cache =
        (applyRowsFrom vis i st rows).total_count := by
  intro rows
  induction rows with
  | nil => intro i st h1 h2 h3 _; exact ⟨h1, h2, h3⟩
  | cons r rest ih =>
    intro i st h1 h2 h3 hvalid
    rw [applyRowsFrom]
    rw [validRows] at hvalid
    by_cases hv : rowVisible vis i
    · rw [if_pos hv]
      rw [if_pos hv] at hvalid
      cases hop : r.op with
      | Insert | UpdateInsert =>
        rw [hop] at hvalid
        simp only [Bool.and_eq_true, Bool.not_eq_true'] at hvalid
        have hlive : isLive st.cache r.key = false := hvalid.1
        have hst : applyOp st r =
            { st with
              cache := doInsert st.cache r.key (r.value.getD ""),
              total_count := st.total_count + 1,
              dirty := true, result := none } := by
          unfold applyOp
          rw [hop]
        rw [hst]
        apply ih (i + 1)
        · exact keysSorted_doInsert h1 _ _
        · exact storeCovered_doInsert h2 hlive _
        · simp only
          rw [countLive_doInsert_not_live h1 hlive, h3]
        · exact hvalid.2
      | Delete | UpdateDelete =>
        rw [hop] at hvalid
        simp only [Bool.and_eq_true] at hvalid
        have hlive : isLive st.cache r.key = true := hvalid.1
        have hone : 1 ≤ countLive st.cache :=
          isLive_one_le_countLive (keysSorted_nodup h1) hlive
        have hst : applyOp st r =
            { st with
              cache := doDelete st.cache r.key,
              total_count := usizeSub1 st.total_count,
              dirty := true, result := none } := by
          unfold applyOp
          rw [hop]
        rw [hst]
        apply ih (i + 1)
        · exact keysSorted_doDelete h1 _
        · exact storeCovered_doDelete h2 hlive
        · simp only
          have hc0 : st.total_count ≠ 0 := by omega
          rw [usizeSub1, if_neg hc0]
          have := countLive_doDelete_live h1 hlive
          omega
        · exact hvalid.2
    · rw [if_neg hv]
      rw [if_neg hv] at hvalid
      exact ih (i + 1) st h1 h2 h3 hvalid

theorem resultOk_transfer {st st' : AggState} {store store' : Store}
    (h : resultOk st store) (hr : st'.result = st.result)
    (hd : st'.delimiter = st.delimiter) (hc : st'.total_count = st.total_count)
    (ha : abstractVals st' store' = abstractVals st store) :
    resultOk st' store' := by
  unfold resultOk at h ⊢
  rw [hr, hd, hc, ha]
  exact h

theorem applyBatchLoad_spec {st : AggState} {store : Store}
    (hInv : StateInv st store) :
    ∃ st1, applyBatchLoad store st = some st1 ∧
      st1.dirty = st.dirty ∧ st1.result = st.result ∧
      st1.total_count = st.total_count ∧ st1.delimiter = st.delimiter ∧
      KeysSorted st1.cache ∧ storeCovered st1.cache store = true ∧
      countLive st1.cache = st1.total_count ∧
      abstractVals st1 store = abstractVals st store ∧
      StateInv st1 store ∧
      (st1.cache = st.cache ∨ st1.cache = loadCache store) := by
  obtain ⟨hsc, hss, hdirty, hclean, hres⟩ := hInv
  unfold applyBatchLoad
  by_cases hload : st.cache.length < st.total_count
  · rw [if_pos hload]
    cases hd : st.dirty with
    | true =>
      obtain ⟨hcov, hcl⟩ := hdirty hd
      have := countLive_le_length st.cache
      omega
    | false =>
      rcases hclean hd with ⟨hc0, hlen⟩ | ⟨hceq, hclen⟩
      · have hl0 : st.cache.length = 0 := by rw [hc0]; rfl
        rw [if_pos hl0]
        rw [readAll_of_clean_empty hd hc0 hss]
        have hpos : 0 < st.total_count := by omega
        have hstore_ne : store ≠ [] := by
          intro h0
          rw [h0] at hlen
          simp at hlen
          omega
        have habs : abstractVals
            { st with cache := loadCache store, dirty := false } store =
            abstractVals st store := by
          unfold abstractVals
          have h1 : (loadCache store).isEmpty = false := by
            cases hstore : store with
            | nil => exact absurd hstore hstore_ne
            | cons hd2 tl2 => simp [loadCache]
          simp only [h1, hc0, List.isEmpty_nil]
          simp [liveVals_loadCache]
        refine ⟨_, rfl, rfl, rfl, rfl, rfl, keysSorted_loadCache hss,
          storeCovered_loadCache store, ?_, habs, ?_, Or.inr rfl⟩
        · simp only [countLive_loadCache]
          omega
        · refine ⟨keysSorted_loadCache hss, hss, ?_, ?_, ?_⟩
          · intro hcontra
            simp at hcontra
          · intro _
            exact Or.inr ⟨rfl, by simp only [length_loadCache]; omega⟩
          · exact resultOk_transfer hres rfl rfl rfl habs
      · exfalso
        have hll : st.cache.length = (loadCache store).length := by rw [hceq]
        rw [length_loadCache] at hll
        rw [hceq, length_loadCache] at hclen
        omega
  · rw [if_neg hload]
    have hcov_cl : storeCovered st.cache store = true ∧
        countLive st.cache = st.total_count := by
      cases hd : st.dirty with
      | true => exact hdirty hd
      | false =>
        rcases hclean hd with ⟨hc0, hlen⟩ | ⟨hceq, hclen⟩
        · have hcnt : st.total_count = 0 := by
            rw [hc0] at hload
            simp at hload
            omega
          have hst0 : store = [] := by
            cases hstore : store with
            | nil => rfl
            | cons hd2 tl2 =>
              rw [hstore] at hlen
              simp at hlen
              omega
          constructor
          · rw [hc0, hst0]
            rfl
          · rw [hc0, hcnt]
            rfl
        · constructor
          · rw [hceq]
            exact storeCovered_loadCache store
          · rw [hceq, countLive_loadCache, ← length_loadCache, ← hceq]
            exact hclen
    exact ⟨st, rfl, rfl, rfl, rfl, rfl, hsc, hcov_cl.1, hcov_cl.2, rfl,
      ⟨hsc, hss, hdirty, hclean, hres⟩, Or.inl rfl⟩

theorem applyBatch_preserve {st : AggState} {store : Store} {rows : List Row}
    {vis : Option (List Bool)} (hInv : StateInv st store)
    (hv : validBatchB store st rows vis = true) :
    ∃ st', applyBatch store st rows vis = some st' ∧ StateInv st' store ∧
      st'.delimiter = st.delimiter := by
  obtain ⟨st1, hload, hd1, hr1, hc1, hdel1, hsc1, hcov1, hcl1, habs1, hInv1, -⟩ :=
    applyBatchLoad_spec hInv
  unfold validBatchB at hv
  rw [hload] at hv
  unfold applyBatch
  rw [hload]
  refine ⟨applyRowsFrom vis 0 st1 rows, rfl, ?_, ?_⟩
  · have hfold := applyRowsFrom_fold vis rows 0 st1 hsc1 hcov1 hcl1 hv
    rcases applyRowsFrom_cases vis rows 0 st1 with heq | ⟨hdt, hrn⟩
    · rw [heq]
      exact hInv1
    · exact ⟨hfold.1, hInv1.2.1, fun _ => ⟨hfold.2.1, hfold.2.2⟩,
        fun hdf => by rw [hdf] at hdt; simp at hdt,
        by unfold resultOk; rw [hrn]; trivial⟩
  · rw [applyRowsFrom_delimiter, hdel1]

theorem getOutput_spec {st : AggState} {store : Store}
    (hInv : StateInv st store) :
    ∃ st', getOutput store st = some (st',
        if st.total_count = 0 then none
        else some (String.intercalate st.delimiter (abstractVals st store))) ∧
      StateInv st' store ∧ st'.total_count = st.total_count ∧
      st'.dirty = st.dirty ∧ st'.delimiter = st.delimiter ∧
      abstractVals st' store = abstractVals st store := by
  obtain ⟨hsc, hss, hdirty, hclean, hres⟩ := hInv
  unfold getOutput
  by_cases hd : st.dirty = true
  · rw [if_pos hd]
    obtain ⟨hcov, hcl⟩ := hdirty hd
    cases hr : st.result with
    | some r =>
      have hresOk := hres
      unfold resultOk at hresOk
      rw [hr] at hresOk
      rw [concat_of_result_some hr]
      exact ⟨st, by rw [hr, if_neg hresOk.2, hresOk.1],
        ⟨hsc, hss, hdirty, hclean, hres⟩, rfl, rfl, rfl, rfl⟩
    | none =>
      by_cases h0 : st.total_count = 0
      · rw [concat_of_count_zero hr h0]
        exact ⟨st, by rw [hr, if_pos h0],
          ⟨hsc, hss, hdirty, hclean, hres⟩, rfl, rfl, rfl, rfl⟩
      · rw [concat_set hr h0]
        have hcne : st.cache ≠ [] := by
          intro hc0
          rw [hc0] at hcl
          rw [countLive_nil] at hcl
          omega
        have hcef : st.cache.isEmpty = false := by
          cases hc : st.cache with
          | nil => exact absurd hc hcne
          | cons a b => rfl
        have habs : abstractVals st store = liveVals st.cache := by
          unfold abstractVals
          rw [hcef]
          simp
        refine ⟨{ st with
          result := some (String.intercalate st.delimiter (liveVals st.cache)) },
          ?_, ?_, rfl, rfl, rfl, ?_⟩
        · rw [if_neg h0, habs]
        · refine ⟨hsc, hss, fun _ => ⟨hcov, hcl⟩,
            fun hdf => by simp [hd] at hdf, ?_⟩
          simp [resultOk, abstractVals, hcef, h0]
        · rfl
  · have hdf : st.dirty = false := by simpa using hd
    rw [if_neg hd]
    cases hr : st.result with
    | some r =>
      have hresOk := hres
      unfold resultOk at hresOk
      rw [hr] at hresOk
      refine ⟨st, ?_, ⟨hsc, hss, hdirty, hclean, hres⟩, rfl, rfl, rfl, rfl⟩
      conv_rhs => rw [if_neg hresOk.2]
      rw [hresOk.1]
    | none =>
      by_cases h0 : st.total_count = 0
      · exact ⟨st, by rw [if_pos h0, if_pos h0],
          ⟨hsc, hss, hdirty, hclean, hres⟩, rfl, rfl, rfl, rfl⟩
      · by_cases hce : st.cache.isEmpty
        · have hc0 : st.cache = [] := by
            cases hc : st.cache with
            | nil => rfl
            | cons a b => rw [hc] at hce; simp at hce
          have hlen : store.length = st.total_count := by
            rcases hclean hdf with ⟨_, hl⟩ | ⟨hceq, hclen⟩
            · exact hl
            · rw [hc0] at hclen
              simp at hclen
              omega
          have hstore_ne : store ≠ [] := by
            intro hse
            rw [hse] at hlen
            simp at hlen
            omega
          have hlcne : (loadCache store).isEmpty = false := by
            cases hse : store with
            | nil => exact absurd hse hstore_ne
            | cons a b => simp [loadCache]
          have habs2 : abstractVals st store = liveVals (loadCache store) := by
            unfold abstractVals
            rw [hc0]
            simp [liveVals_loadCache, storeVals]
          rw [if_neg h0, if_pos hce, readAll_of_clean_empty hdf hc0 hss]
          rw [Option.map_some']
          rw [@concat_set { st with cache := loadCache store, dirty := false } hr h0]
          refine ⟨{ st with
            cache := loadCache store, dirty := false,
            result := some (String.intercalate st.delimiter
              (liveVals (loadCache store))) }, ?_, ?_, rfl, hdf.symm, rfl, ?_⟩
          · rw [if_neg h0, habs2]
          · refine ⟨keysSorted_loadCache hss, hss,
              fun hdt => by simp at hdt,
              fun _ => Or.inr ⟨rfl, by simp only [length_loadCache]; omega⟩, ?_⟩
            simp [resultOk, abstractVals, hlcne, h0]
          · rw [habs2]
            unfold abstractVals
            simp [hlcne]
        · have hcef : st.cache.isEmpty = false := by
            cases hc : st.cache with
            | nil => rw [hc] at hce; simp at hce
            | cons a b => rfl
          have habs : abstractVals st store = liveVals st.cache := by
            unfold abstractVals
            rw [hcef]
            simp
          have hcl2 : st.cache = loadCache store ∧
              st.cache.length = st.total_count := by
            rcases hclean hdf with ⟨hc0, _⟩ | h2
            · rw [hc0] at hcef
              simp at hcef
            · exact h2
          rw [if_neg h0, if_neg hce, concat_set hr h0]
          refine ⟨{ st with
            result := some (String.intercalate st.delimiter (liveVals st.cache)) },
            ?_, ?_, rfl, rfl, rfl, ?_⟩
          · rw [if_neg h0, habs]
          · refine ⟨hsc, hss, fun hdt => by rw [hdf] at hdt; simp at hdt,
              fun _ => Or.inr hcl2, ?_⟩
            simp [resultOk, abstractVals, hcef, h0]
          · rfl

theorem getOutput_isSome (store : Store) (st : AggState) :
    (getOutput store st).isSome = true := by
  unfold getOutput
  by_cases hd : st.dirty = true
  · rw [if_pos hd]
    rfl
  · have hdf : st.dirty = false := by simpa using hd
    rw [if_neg hd]
    cases hr : st.result with
    | some r => rfl
    | none =>
      by_cases h0 : st.total_count = 0
      · rw [if_pos h0]
        rfl
      · rw [if_neg h0]
        by_cases hce : st.cache.isEmpty
        · rw [if_pos hce]
          unfold readAllIntoMemory
          rw [hdf]
          simp
        · rw [if_neg hce]
          rfl

theorem flush_preserve {st : AggState} {store : Store}
    (hInv : StateInv st store) :
    StateInv (flush st []).1 (ingestBatch store (flush st []).2) ∧
      (flush st []).1.total_count = st.total_count ∧
      (flush st []).1.delimiter = st.delimiter ∧
      abstractVals (flush st []).1 (ingestBatch store (flush st []).2) =
        abstractVals st store := by
  obtain ⟨hsc, hss, hdirty, hclean, hres⟩ := hInv
  rw [flush_spec]
  by_cases hd : st.dirty = true
  · rw [if_pos hd]
    obtain ⟨hcov, hcl⟩ := hdirty hd
    have hstore' : ingestBatch store ([] ++ st.cache.map entryToWriteOp) =
        liveStore st.cache := by
      rw [List.nil_append]
      exact ingest_flush_ops hsc hss hcov
    have habs' : abstractVals
        ({ st with cache := [], dirty := false } : AggState)
        (liveStore st.cache) = abstractVals st store := by
      unfold abstractVals
      cases hc : st.cache with
      | nil =>
        have hst0 : store = [] := storeCovered_empty_cache (hc ▸ hcov)
        simp [hst0, liveStore, storeVals]
      | cons a b =>
        rw [← hc]
        have hcef : st.cache.isEmpty = false := by rw [hc]; rfl
        simp only [List.isEmpty_nil, if_true, hcef, Bool.false_eq_true, if_false]
        exact storeVals_liveStore st.cache
    refine ⟨?_, rfl, rfl, ?_⟩
    · refine ⟨List.Pairwise.nil, ?_, fun hdt => by simp at hdt,
        fun _ => Or.inl ⟨rfl, ?_⟩, ?_⟩
      · rw [hstore']
        exact keysSorted_liveStore hsc
      · rw [hstore', length_liveStore]
        exact hcl
      · exact resultOk_transfer hres rfl rfl rfl (by rw [hstore']; exact habs')
    · rw [hstore']
      exact habs'
  · have hdf : st.dirty = false := by simpa using hd
    rw [if_neg hd]
    exact ⟨⟨hsc, hss, hdirty, hclean, hres⟩, rfl, rfl, rfl⟩

theorem stateInv_init (row_count : Nat) (delim : String) (store : Store)
    (hs : KeysSorted store) (hc : store.length = row_count) :
    StateInv (newState row_count delim) store :=
  ⟨List.Pairwise.nil, hs, fun h => by simp [newState] at h,
    fun _ => Or.inl ⟨rfl, hc⟩, by unfold resultOk newState; trivial⟩

theorem reachable_inv {st : AggState} {store : Store} (h : Reachable st store) :
    StateInv st store := by
  induction h with
  | init row_count delim store hs hc => exact stateInv_init row_count delim store hs hc
  | applyStep rows vis h hv ha ih =>
    obtain ⟨st2, ha2, hInv2, _⟩ := applyBatch_preserve ih hv
    rw [ha] at ha2
    obtain rfl : _ = st2 := Option.some.inj ha2
    exact hInv2
  | outputStep h ho ih =>
    obtain ⟨st2, ho2, hInv2, _⟩ := getOutput_spec ih
    rw [ho] at ho2
    obtain ⟨rfl, -⟩ : _ ∧ _ := Prod.mk.injEq .. ▸ Option.some.inj ho2
    exact hInv2
  | flushStep h hf ih =>
    have hp := flush_preserve ih
    rw [hf] at hp
    exact hp.1

/-! ## Visibility helpers -/

theorem applyRowsFrom_none_idx :
    ∀ (rows : List Row) (i j : Nat) (st : AggState),
    applyRowsFrom none i st rows = applyRowsFrom none j st rows := by
  intro rows
  induction rows with
  | nil => intro i j st; rfl
  | cons r rest ih =>
    intro i j st
    rw [applyRowsFrom, applyRowsFrom]
    exact ih (i + 1) (j + 1) (if rowVisible none i then applyOp st r else st)

theorem applyRowsFrom_visibleOnly (vis : Option (List Bool)) :
    ∀ (rows : List Row) (i : Nat) (st : AggState),
    applyRowsFrom vis i st rows = applyRowsFrom none 0 st (visibleOnly vis i rows) := by
  intro rows
  induction rows with
  | nil => intro i st; rfl
  | cons r rest ih =>
    intro i st
    rw [applyRowsFrom, visibleOnly]
    by_cases hv : rowVisible vis i
    · rw [if_pos hv, if_pos hv, ih]
      rw [applyRowsFrom]
      have hv0 : rowVisible none 0 = true := rfl
      rw [if_pos hv0]
      exact applyRowsFrom_none_idx (visibleOnly vis (i + 1) rest) 0 1 (applyOp st r)
    · rw [if_neg hv, if_neg hv, ih]

/-! ## Count conservation helpers -/

theorem applyRowsFrom_count_exact (vis : Option (List Bool)) :
    ∀ (rows : List Row) (i : Nat) (st : AggState),
    deletesSafe vis st.total_count i rows = true →
    (applyRowsFrom vis i st rows).total_count + visDelCount vis i rows =
      st.total_count + visInsCount vis i rows := by
  intro rows
  induction rows with
  | nil => intro i st _; rfl
  | cons r rest ih =>
    intro i st hsafe
    obtain ⟨op, key, value⟩ := r
    rw [applyRowsFrom, visDelCount, visInsCount]
    rw [deletesSafe] at hsafe
    by_cases hv : rowVisible vis i
    · simp only [if_pos hv] at hsafe ⊢
      cases op with
      | Insert =>
        have hst : applyOp st ⟨Op.Insert, key, value⟩ =
            { st with
              cache := doInsert st.cache key (value.getD ""),
              total_count := st.total_count + 1,
              dirty := true, result := none } := rfl
        rw [hst]
        have := ih (i + 1)
          { st with
              cache := doInsert st.cache key (value.getD ""),
              total_count := st.total_count + 1, dirty := true, result := none }
          hsafe
        simp only at this ⊢
        omega
      | UpdateInsert =>
        have hst : applyOp st ⟨Op.UpdateInsert, key, value⟩ =
            { st with
              cache := doInsert st.cache key (value.getD ""),
              total_count := st.total_count + 1,
              dirty := true, result := none } := rfl
        rw [hst]
        have := ih (i + 1)
          { st with
              cache := doInsert st.cache key (value.getD ""),
              total_count := st.total_count + 1, dirty := true, result := none }
          hsafe
        simp only at this ⊢
        omega
      | Delete =>
        simp only [Bool.and_eq_true, decide_eq_true_eq] at hsafe
        have hpos : 0 < st.total_count := hsafe.1
        have hsub : usizeSub1 st.total_count = st.total_count - 1 := by
          rw [usizeSub1, if_neg (by omega)]
        have hst : applyOp st ⟨Op.Delete, key, value⟩ =
            { st with
              cache := doDelete st.cache key,
              total_count := usizeSub1 st.total_count,
              dirty := true, result := none } := rfl
        rw [hst]
        have := ih (i + 1)
          { st with
              cache := doDelete st.cache key,
              total_count := usizeSub1 st.total_count, dirty := true, result := none }
          (by simp only [hsub]; exact hsafe.2)
        simp only [hsub] at this ⊢
        omega
      | UpdateDelete =>
        simp only [Bool.and_eq_true, decide_eq_true_eq] at hsafe
        have hpos : 0 < st.total_count := hsafe.1
        have hsub : usizeSub1 st.total_count = st.total_count - 1 := by
          rw [usizeSub1, if_neg (by omega)]
        have hst : applyOp st ⟨Op.UpdateDelete, key, value⟩ =
            { st with
              cache := doDelete st.cache key,
              total_count := usizeSub1 st.total_count,
              dirty := true, result := none } := rfl
        rw [hst]
        have := ih (i + 1)
          { st with
              cache := doDelete st.cache key,
              total_count := usizeSub1 st.total_count, dirty := true, result := none }
          (by simp only [hsub]; exact hsafe.2)
        simp only [hsub] at this ⊢
        omega
    · simp only [if_neg hv] at hsafe ⊢
      have := ih (i + 1) st hsafe
      omega

/-! ## Claims -/

/-- C6: `flush` is a no-op when `dirty == false` (state and write batch
unchanged); when `dirty == true` it appends exactly one write-batch operation
per cache entry — for `Insert`/`DeleteInsert` entries a put of the key with
the serialized value, for `Delete` entries a delete with absent value
(`entryToWriteOp`) — and afterwards the cache is empty, `dirty == false`,
and `total_count` is unchanged (the record update touches only `cache` and
`dirty`). -/
theorem claim_C6 (st : AggState) (wb : List (Bytes × Option Bytes)) :
    flush st wb =
      if st.dirty then
        ({ st with cache := [], dirty := false },
          wb ++ st.cache.map entryToWriteOp)
      else (st, wb) :=
  flush_spec st wb

/-- C7: on every invariant-satisfying state with `total_count == 0` and an
empty cache, `get_output` succeeds and returns the absent value `none` (not
`some ""`), leaving the state untouched: the absent answer is a definitive
result for an empty group, distinct from the `result` memo still being
`none` (not yet computed). -/
theorem claim_C7 {st : AggState} {store : Store} (hInv : StateInv st store)
    (h0 : st.total_count = 0) (hc : st.cache = []) :
    getOutput store st = some (st, none) := by
  have hres := hInv.2.2.2.2
  have hrn : st.result = none := by
    unfold resultOk at hres
    cases hr : st.result with
    | none => rfl
    | some r =>
      rw [hr] at hres
      exact absurd h0 hres.2
  unfold getOutput
  by_cases hd : st.dirty = true
  · rw [if_pos hd, concat_of_count_zero hrn h0, hrn]
  · rw [if_neg hd, hrn, if_pos h0]

theorem claim_C7_witness : getOutput [] (newState 0 ",") = some (newState 0 ",", none) :=
  claim_C7 (by decide) (by decide) (by decide)

/-- C8: every row marked invisible by the visibility mask is skipped
entirely: `apply_batch` computes exactly the same resulting state as
applying only the visible subsequence of rows with no mask, so an invisible
row changes neither `total_count`, nor the cache, nor the dirty flag, nor
the memoized result. -/
theorem claim_C8 (store : Store) (st : AggState) (rows : List Row)
    (vis : Option (List Bool)) :
    applyBatch store st rows vis = applyBatch store st (visibleOnly vis 0 rows) none := by
  unfold applyBatch
  cases hl : applyBatchLoad store st with
  | none => rfl
  | some st1 =>
    rw [Option.map_some', Option.map_some', applyRowsFrom_visibleOnly]

/-- C9: `read_all_into_memory` has precondition `!dirty` — it aborts (the
`none` embedding of the `assert!` panic, not a recoverable error) exactly
when `dirty == true`; and through the public interface the assertion is
never triggered: on every invariant-satisfying state `apply_batch` returns
without panicking, and `get_output` returns without panicking on every
state whatsoever. -/
theorem claim_C9 :
    (∀ (store : Store) (st : AggState),
      readAllIntoMemory store st = none ↔ st.dirty = true) ∧
    (∀ (store : Store) (st : AggState) (rows : List Row)
      (vis : Option (List Bool)),
      StateInv st store → (applyBatch store st rows vis).isSome = true) ∧
    (∀ (store : Store) (st : AggState), (getOutput store st).isSome = true) := by
  refine ⟨?_, ?_, getOutput_isSome⟩
  · intro store st
    unfold readAllIntoMemory
    by_cases hd : st.dirty = true
    · rw [if_pos hd]
      simp [hd]
    · rw [if_neg hd]
      constructor
      · intro h
        simp at h
      · intro h
        exact absurd h hd
  · intro store st rows vis hInv
    obtain ⟨st1, hload, -⟩ := applyBatchLoad_spec hInv
    unfold applyBatch
    rw [hload]
    rfl

theorem claim_C9_witness :
    (applyBatch [] (newState 0 ",") [⟨Op.Insert, [3], some "v"⟩] none).isSome = true :=
  claim_C9.2.1 [] (newState 0 ",") [⟨Op.Insert, [3], some "v"⟩] none (by decide)

/-- C10: `apply_batch` decrements `total_count` with an unchecked `usize`
subtraction (`usizeSub1`). If the running count is strictly positive at the
point each visible delete is applied (`deletesSafe`), the subtraction never
underflows: the exact conservation equation (final count plus visible
deletes equals initial count plus visible inserts) holds over the naturals.
A visible delete applied at `total_count == 0` is not surfaced as an error
(the row loop is total, returning a state, and `apply_batch` returns `Ok`):
it underflows, wrapping the count to `2 ^ 64 - 1` as in release builds
(debug builds panic at the same subtraction). -/
theorem claim_C10 :
    (∀ (vis : Option (List Bool)) (rows : List Row) (i : Nat) (st : AggState),
      deletesSafe vis st.total_count i rows = true →
      (applyRowsFrom vis i st rows).total_count + visDelCount vis i rows =
        st.total_count + visInsCount vis i rows) ∧
    (∀ (st : AggState) (r : Row), st.total_count = 0 → r.op = Op.Delete →
      (applyOp st r).total_count = 2 ^ 64 - 1) := by
  refine ⟨fun vis rows i st h => applyRowsFrom_count_exact vis rows i st h, ?_⟩
  intro st r h0 hop
  obtain ⟨op, key, value⟩ := r
  simp only at hop
  subst hop
  have hst : applyOp st ⟨Op.Delete, key, value⟩ =
      { st with
        cache := doDelete st.cache key,
        total_count := usizeSub1 st.total_count,
        dirty := true, result := none } := rfl
  rw [hst]
  simp only
  rw [usizeSub1, if_pos h0]

theorem claim_C10_witness :
    ((applyRowsFrom none 0 (newState 0 ",")
        [⟨Op.Insert, [1], some "a"⟩, ⟨Op.Delete, [1], none⟩]).total_count +
      visDelCount none 0 [⟨Op.Insert, [1], some "a"⟩, ⟨Op.Delete, [1], none⟩] =
      (newState 0 ",").total_count +
      visInsCount none 0 [⟨Op.Insert, [1], some "a"⟩, ⟨Op.Delete, [1], none⟩]) ∧
    (applyOp (newState 0 ",") ⟨Op.Delete, [2], none⟩).total_count = 2 ^ 64 - 1 :=
  ⟨claim_C10.1 none [⟨Op.Insert, [1], some "a"⟩, ⟨Op.Delete, [1], none⟩] 0
      (newState 0 ",") (by decide),
    claim_C10.2 (newState 0 ",") ⟨Op.Delete, [2], none⟩ rfl rfl⟩

/-- C1 (counterexample): with a serializer that fails on the value `"b"` but
not on `"a"` (the spec models value serialization as fallible), flushing a
dirty two-entry cache returns an error (`false` flag) — yet the
caller-supplied write batch, initially empty, has been extended by the put
for the first entry (`serializeValue "a" = [97]`), contradicting the claim
that the write batch contains no operations appended by the failing flush
call. The cache has also already been drained. -/
theorem claim_C1_counterexample :
    flushWith (fun s => if s = "b" then none else some (serializeValue s))
      { cache := [([1], FlushStatus.Insert "a"), ([2], FlushStatus.Insert "b")],
        result := none, dirty := true, total_count := 2, delimiter := "," } [] =
      ({ cache := [], result := none, dirty := true, total_count := 2,
         delimiter := "," }, [([1], some [97])], false) ∧
    ([([1], some [97])] : List (Bytes × Option Bytes)) ≠ [] := by
  constructor
  · rfl
  · intro h
    simp at h

/-- C1 (amended): when serializing the value of a cache entry fails during
`flush`, the call returns an error and the state was dirty — but the
caller-supplied write batch has already been extended, in order, by exactly
the operations for the cache entries preceding the first failure
(`flushPartial`), and the cache has been drained (`dirty` stays set, so the
state remains marked as diverging from storage). -/
theorem claim_C1_amended (ser : String → Option Bytes) (st : AggState)
    (wb : List (Bytes × Option Bytes))
    (herr : (flushWith ser st wb).2.2 = false) :
    (flushWith ser st wb).2.1 = wb ++ flushPartial ser st.cache ∧
    (flushWith ser st wb).1 = { st with cache := [] } ∧
    st.dirty = true := by
  unfold flushWith at herr ⊢
  by_cases hd : st.dirty = true
  · rw [if_pos hd] at herr ⊢
    cases hfl : flushLoop ser st.cache wb with
    | ok wb' =>
      rw [hfl] at herr
      simp at herr
    | error wb' =>
      exact ⟨flushLoop_error st.cache wb wb' hfl, rfl, hd⟩
  · rw [if_neg hd] at herr
    simp at herr

theorem claim_C1_amended_witness :
    (flushWith (fun s => if s = "b" then none else some (serializeValue s))
      { cache := [([1], FlushStatus.Insert "a"), ([2], FlushStatus.Insert "b")],
        result := none, dirty := true, total_count := 2, delimiter := "," } []).2.1 =
      [] ++ flushPartial (fun s => if s = "b" then none else some (serializeValue s))
        [([1], FlushStatus.Insert "a"), ([2], FlushStatus.Insert "b")] ∧
    (flushWith (fun s => if s = "b" then none else some (serializeValue s))
      { cache := [([1], FlushStatus.Insert "a"), ([2], FlushStatus.Insert "b")],
        result := none, dirty := true, total_count := 2, delimiter := "," } []).1 =
      { cache := ([] : Cache), result := none, dirty := true, total_count := 2,
        delimiter := "," } ∧
    ({ cache := [([1], FlushStatus.Insert "a"), ([2], FlushStatus.Insert "b")],
       result := none, dirty := true, total_count := 2,
       delimiter := "," } : AggState).dirty = true :=
  claim_C1_amended (fun s => if s = "b" then none else some (serializeValue s))
    { cache := [([1], FlushStatus.Insert "a"), ([2], FlushStatus.Insert "b")],
      result := none, dirty := true, total_count := 2, delimiter := "," } []
    (by decide)

/-- C4 (counterexample): the claim quantifies over every sequence of calls
from construction, but `new` accepts any caller-supplied `row_count`.
Constructing over a one-entry store with `row_count = 2` (violating spec
Invariant I3) and applying one empty batch loads the store into the cache
and leaves a clean state whose cache holds 1 entry while `total_count = 2`:
`dirty == false` yet the cache size is neither zero nor `total_count`. -/
theorem claim_C4_counterexample :
    (applyBatch [([0], [65])] (newState 2 ",") [] none =
      some { cache := [([0], FlushStatus.DeleteInsert "A")], result := none,
             dirty := false, total_count := 2, delimiter := "," }) ∧
    (({ cache := [([0], FlushStatus.DeleteInsert "A")], result := none,
        dirty := false, total_count := 2, delimiter := "," } : AggState).dirty
      = false) ∧
    ¬(({ cache := [([0], FlushStatus.DeleteInsert "A")], result := none,
         dirty := false, total_count := 2, delimiter := "," } : AggState).cache.length = 0 ∨
      ({ cache := [([0], FlushStatus.DeleteInsert "A")], result := none,
         dirty := false, total_count := 2, delimiter := "," } : AggState).cache.length =
      ({ cache := [([0], FlushStatus.DeleteInsert "A")], result := none,
         dirty := false, total_count := 2, delimiter := "," } : AggState).total_count) := by
  refine ⟨?_, rfl, by decide⟩
  rfl

/-- C4 (amended): in every state reachable from construction under the
documented contracts — the supplied `row_count` equals the number of
persisted entries (Invariant I3), batches are valid retraction streams, and
each flush's write batch is ingested at the checkpoint boundary — whenever
`dirty == false` the cache contains either zero entries or exactly
`total_count` entries; a partially-loaded cache never exists. -/
theorem claim_C4 {st : AggState} {store : Store} (h : Reachable st store)
    (hd : st.dirty = false) :
    st.cache.length = 0 ∨ st.cache.length = st.total_count := by
  obtain ⟨hsc, hss, hdirty, hclean, hres⟩ := reachable_inv h
  rcases hclean hd with ⟨hc0, _⟩ | ⟨_, hlen⟩
  · left
    rw [hc0]
    rfl
  · right
    exact hlen

theorem claim_C4_witness :
    (newState 0 ",").cache.length = 0 ∨
      (newState 0 ",").cache.length = (newState 0 ",").total_count :=
  claim_C4 (Reachable.init 0 "," [] (by decide) rfl) rfl

/-- C3: starting from any invariant-satisfying state, record what
`get_output` returns, then `flush` and ingest the resulting write batch
into the store; constructing a fresh state over the same keyspace with the
flushed state's `total_count` (and the same configured delimiter) and
calling `get_output` returns exactly the pre-destruction result. -/
theorem claim_C3 {st : AggState} {store : Store} (hInv : StateInv st store)
    {st1 : AggState} {out : Option String}
    (hout : getOutput store st = some (st1, out)) :
    ∃ stq, getOutput (ingestBatch store (flush st1 []).2)
        (newState (flush st1 []).1.total_count st.delimiter) =
      some (stq, out) := by
  obtain ⟨st1', hout', hInv1, hc1, hd1, hdel1, habs1⟩ := getOutput_spec hInv
  rw [hout] at hout'
  have hpair := Option.some.inj hout'
  have h1 : st1 = st1' := congrArg Prod.fst hpair
  have h2 : out =
      if st.total_count = 0 then none
      else some (String.intercalate st.delimiter (abstractVals st store)) :=
    congrArg Prod.snd hpair
  subst h1
  have hp := flush_preserve hInv1
  obtain ⟨hpInv, hpc, hpd, hpabs⟩ := hp
  have hdirtyF : (flush st1 []).1.dirty = false := by
    rw [flush_spec]
    by_cases hb : st1.dirty
    · rw [if_pos hb]
    · rw [if_neg hb]
      simpa using hb
  obtain ⟨hscF, hssF, _, hcleanF, _⟩ := hpInv
  have hlenF : (ingestBatch store (flush st1 []).2).length =
      (flush st1 []).1.total_count := by
    rcases hcleanF hdirtyF with ⟨_, hl⟩ | ⟨hceq, hclen⟩
    · exact hl
    · have := congrArg List.length hceq
      rw [length_loadCache] at this
      rw [← this]
      exact hclen
  obtain ⟨stq, houtq, _, _, _, _, _⟩ :=
    getOutput_spec (stateInv_init (flush st1 []).1.total_count st.delimiter
      (ingestBatch store (flush st1 []).2) hssF hlenF)
  refine ⟨stq, ?_⟩
  rw [houtq]
  have habsq : abstractVals
      (newState (flush st1 []).1.total_count st.delimiter)
      (ingestBatch store (flush st1 []).2) =
      abstractVals (flush st1 []).1 (ingestBatch store (flush st1 []).2) := by
    rcases hcleanF hdirtyF with ⟨hc0, _⟩ | ⟨hceq, _⟩
    · unfold abstractVals
      rw [hc0]
      simp [newState]
    · unfold abstractVals
      rw [hceq]
      cases hE : (loadCache (ingestBatch store (flush st1 []).2)).isEmpty with
      | true => simp [newState, hE]
      | false => simp [newState, hE, liveVals_loadCache]
  have hcount : (flush st1 []).1.total_count = st.total_count := by
    rw [hpc, hc1]
  have habs_chain : abstractVals
      (newState (flush st1 []).1.total_count st.delimiter)
      (ingestBatch store (flush st1 []).2) = abstractVals st store := by
    rw [habsq, hpabs, habs1]
  have hval : (if (newState (flush st1 []).1.total_count st.delimiter).total_count
        = 0 then none
      else some ((newState (flush st1 []).1.total_count st.delimiter).delimiter.intercalate
        (abstractVals (newState (flush st1 []).1.total_count st.delimiter)
          (ingestBatch store (flush st1 []).2)))) = out := by
    rw [habs_chain]
    have hn1 : (newState (flush st1 []).1.total_count st.delimiter).total_count =
        st.total_count := hcount
    have hn2 : (newState (flush st1 []).1.total_count st.delimiter).delimiter =
        st.delimiter := rfl
    rw [hn1, hn2, h2]
  rw [hval]

/-- C5 (counterexample): the claim quantifies over every state and every
sort key not present in storage, but a key with a pending (unflushed)
`Insert` entry in the cache is not in storage either. Reaching such a state
by inserting `([7], "x")` into a fresh empty-store state, then applying an
insert of `([7], "y")` followed by a delete of the same key, cancels the
new pair and the pending one: `get_output` changes from `"x"` before the
insert to `""` after the delete, falsifying the claim as stated. -/
theorem claim_C5_counterexample :
    (applyBatch [] (newState 0 "|") [⟨Op.Insert, [7], some "x"⟩] none =
      some { cache := [([7], FlushStatus.Insert "x")], result := none,
             dirty := true, total_count := 1, delimiter := "|" }) ∧
    (getOutput []
      { cache := [([7], FlushStatus.Insert "x")], result := none,
        dirty := true, total_count := 1, delimiter := "|" } =
      some ({ cache := [([7], FlushStatus.Insert "x")], result := some "x",
              dirty := true, total_count := 1, delimiter := "|" }, some "x")) ∧
    (applyBatch []
      { cache := [([7], FlushStatus.Insert "x")], result := none,
        dirty := true, total_count := 1, delimiter := "|" }
      [⟨Op.Insert, [7], some "y"⟩, ⟨Op.Delete, [7], some "y"⟩] none =
      some { cache := [], result := none, dirty := true, total_count := 1,
             delimiter := "|" }) ∧
    (getOutput []
      { cache := [], result := none, dirty := true, total_count := 1,
        delimiter := "|" } =
      some ({ cache := [], result := some "", dirty := true, total_count := 1,
              delimiter := "|" }, some "")) ∧
    (some "x" ≠ some "") := by
  refine ⟨rfl, rfl, rfl, rfl, ?_⟩
  intro h
  simp at h

/-- C5 (amended): on every invariant-satisfying state, for every sort key
neither present in storage nor carrying a pending cache entry, applying an
insert of that key followed by a delete of the same key — either within one
batch or as two consecutive batches, before any flush — yields the same
resulting state; that state's next flush contains no write-batch operation
for that key, and `get_output` on it returns exactly what it returned
before the insert. -/
theorem claim_C5 {st : AggState} {store : Store} (hInv : StateInv st store)
    {k : Bytes} (hks : k ∉ kvKeys store) (hkc : k ∉ kvKeys st.cache)
    (v v' : Option String) :
    ∃ st', applyBatch store st [⟨Op.Insert, k, v⟩, ⟨Op.Delete, k, v'⟩] none =
        some st' ∧
      applyBatches store st [[⟨Op.Insert, k, v⟩], [⟨Op.Delete, k, v'⟩]] =
        some st' ∧
      (∀ o ∈ (flush st' []).2, o.1 ≠ k) ∧
      (∀ stp out, getOutput store st = some (stp, out) →
        ∃ stq, getOutput store st' = some (stq, out)) := by
  obtain ⟨st1, hload, hd1, hr1, hc1, hdel1, hsc1, hcov1, hcl1, habs1, hInv1, hcOr⟩ :=
    applyBatchLoad_spec hInv
  have hk1 : k ∉ kvKeys st1.cache := by
    rcases hcOr with h | h
    · rw [h]
      exact hkc
    · rw [h, kvKeys_loadCache]
      exact hks
  have hget1 : kvGet k st1.cache = none := (kvGet_eq_none_iff k st1.cache).mpr hk1
  have hci : doInsert st1.cache k (v.getD "") =
      kvSet k (FlushStatus.Insert (v.getD "")) st1.cache := by
    unfold doInsert
    rw [hget1]
  have hget2 : kvGet k (kvSet k (FlushStatus.Insert (v.getD "")) st1.cache) =
      some (FlushStatus.Insert (v.getD "")) := kvGet_kvSet_self k _ st1.cache
  have hcd : doDelete (kvSet k (FlushStatus.Insert (v.getD "")) st1.cache) k =
      st1.cache := by
    unfold doDelete
    rw [hget2]
    exact kvErase_kvSet_cancel _ hk1
  have hsub : usizeSub1 (st1.total_count + 1) = st1.total_count := by
    rw [usizeSub1, if_neg (Nat.succ_ne_zero st1.total_count)]
    omega
  refine ⟨{ st1 with dirty := true, result := none }, ?_, ?_, ?_, ?_⟩
  · unfold applyBatch
    rw [hload, Option.map_some']
    have h1 : applyRowsFrom none 0 st1 [⟨Op.Insert, k, v⟩, ⟨Op.Delete, k, v'⟩] =
        applyOp (applyOp st1 ⟨Op.Insert, k, v⟩) ⟨Op.Delete, k, v'⟩ := rfl
    have h2 : applyOp (applyOp st1 ⟨Op.Insert, k, v⟩) ⟨Op.Delete, k, v'⟩ =
        { st1 with
          cache := doDelete (doInsert st1.cache k (v.getD "")) k,
          total_count := usizeSub1 (st1.total_count + 1),
          dirty := true, result := none } := rfl
    rw [h1, h2, hci, hcd, hsub]
  · unfold applyBatches
    have hb1 : applyBatch store st [⟨Op.Insert, k, v⟩] none =
        some { st1 with
          cache := kvSet k (FlushStatus.Insert (v.getD "")) st1.cache,
          total_count := st1.total_count + 1,
          dirty := true, result := none } := by
      unfold applyBatch
      rw [hload, Option.map_some']
      have h1 : applyRowsFrom none 0 st1 [⟨Op.Insert, k, v⟩] =
          applyOp st1 ⟨Op.Insert, k, v⟩ := rfl
      have h2 : applyOp st1 ⟨Op.Insert, k, v⟩ =
          { st1 with
            cache := doInsert st1.cache k (v.getD ""),
            total_count := st1.total_count + 1,
            dirty := true, result := none } := rfl
      rw [h1, h2, hci]
    have hlen2 : (kvSet k (FlushStatus.Insert (v.getD "")) st1.cache).length =
        st1.cache.length + 1 := length_kvSet_of_not_mem _ hk1
    have hnoload : ¬((kvSet k (FlushStatus.Insert (v.getD "")) st1.cache).length <
        st1.total_count + 1) := by
      have := countLive_le_length st1.cache
      omega
    have hb2 : applyBatch store
        { st1 with
          cache := kvSet k (FlushStatus.Insert (v.getD "")) st1.cache,
          total_count := st1.total_count + 1,
          dirty := true, result := none } [⟨Op.Delete, k, v'⟩] none =
        some { st1 with dirty := true, result := none } := by
      unfold applyBatch applyBatchLoad
      rw [if_neg hnoload, Option.map_some']
      have h1 : applyRowsFrom none 0
          { st1 with
            cache := kvSet k (FlushStatus.Insert (v.getD "")) st1.cache,
            total_count := st1.total_count + 1,
            dirty := true, result := none } [⟨Op.Delete, k, v'⟩] =
          { st1 with
            cache := doDelete (kvSet k (FlushStatus.Insert (v.getD "")) st1.cache) k,
            total_count := usizeSub1 (st1.total_count + 1),
            dirty := true, result := none } := rfl
      rw [h1, hcd, hsub]
    have hfold : List.foldlM (fun s b => applyBatch store s b none) st
        [[(⟨Op.Insert, k, v⟩ : Row)], [⟨Op.Delete, k, v'⟩]] =
        (applyBatch store st [⟨Op.Insert, k, v⟩] none).bind (fun s1 =>
          (applyBatch store s1 [⟨Op.Delete, k, v'⟩] none).bind
            (fun s2 => some s2)) := rfl
    rw [hfold, hb1, Option.some_bind, hb2, Option.some_bind]
  · intro o ho
    rw [flush_spec] at ho
    have hdt : ({ st1 with dirty := true, result := none } : AggState).dirty = true := rfl
    rw [if_pos hdt] at ho
    simp only [List.nil_append] at ho
    obtain ⟨kv, hkv, rfl⟩ := List.mem_map.mp ho
    intro hkeq
    apply hk1
    rw [← hkeq]
    exact List.mem_map_of_mem Prod.fst hkv
  · intro stp out houtp
    obtain ⟨stp', houtp', _, _, _, _, _⟩ := getOutput_spec hInv
    rw [houtp] at houtp'
    have h2 : out =
        if st.total_count = 0 then none
        else some (String.intercalate st.delimiter (abstractVals st store)) :=
      congrArg Prod.snd (Option.some.inj houtp')
    have hInv' : StateInv { st1 with dirty := true, result := none } store := by
      refine ⟨hsc1, hInv1.2.1, fun _ => ⟨hcov1, hcl1⟩,
        fun hdf => by simp at hdf, ?_⟩
      unfold resultOk
      trivial
    obtain ⟨stq, houtq, _, _, _, _, _⟩ := getOutput_spec hInv'
    refine ⟨stq, ?_⟩
    rw [houtq]
    have hcq : ({ st1 with dirty := true, result := none } : AggState).total_count =
        st.total_count := hc1
    have hdq : ({ st1 with dirty := true, result := none } : AggState).delimiter =
        st.delimiter := hdel1
    have habsq : abstractVals { st1 with dirty := true, result := none } store =
        abstractVals st store := habs1
    rw [habsq, hcq, hdq, h2]

theorem claim_C5_witness :
    ∃ st', applyBatch [] (newState 0 "|")
        [⟨Op.Insert, [7], some "x"⟩, ⟨Op.Delete, [7], none⟩] none = some st' ∧
      applyBatches [] (newState 0 "|")
        [[⟨Op.Insert, [7], some "x"⟩], [⟨Op.Delete, [7], none⟩]] = some st' ∧
      (∀ o ∈ (flush st' []).2, o.1 ≠ [7]) ∧
      (∀ stp out, getOutput [] (newState 0 "|") = some (stp, out) →
        ∃ stq, getOutput [] st' = some (stq, out)) :=
  claim_C5 (by decide) (by decide) (by decide) (some "x") none

theorem claim_C3_witness :
    ∃ stq, getOutput (ingestBatch [] (flush (newState 0 ",") []).2)
        (newState (flush (newState 0 ",") []).1.total_count ",") =
      some (stq, none) :=
  claim_C3 (show StateInv (newState 0 ",") [] by decide)
    (show getOutput [] (newState 0 ",") = some (newState 0 ",", none) by decide)

/-! ## Insert-only batch helpers -/

theorem mem_kvKeys_doInsert (a k : Bytes) (v : String) (c : Cache) :
    a ∈ kvKeys (doInsert c k v) ↔ a = k ∨ a ∈ kvKeys c := by
  unfold doInsert
  cases kvGet k c with
  | none => exact mem_kvKeys_kvSet a k _ c
  | some fs => cases fs <;> exact mem_kvKeys_kvSet a k _ c

theorem keysSorted_insFold :
    ∀ (rows : List Row) (c : Cache), KeysSorted c →
    KeysSorted (rows.foldl (fun c r => doInsert c r.key (r.value.getD "")) c) := by
  intro rows
  induction rows with
  | nil => intro c hc; exact hc
  | cons r rest ih =>
    intro c hc
    exact ih (doInsert c r.key (r.value.getD "")) (keysSorted_doInsert hc _ _)

theorem length_insFold :
    ∀ (rows : List Row) (c : Cache), (rows.map Row.key).Nodup →
    (∀ r ∈ rows, r.key ∉ kvKeys c) →
    (rows.foldl (fun c r => doInsert c r.key (r.value.getD "")) c).length =
      c.length + rows.length := by
  intro rows
  induction rows with
  | nil => intro c _ _; rfl
  | cons r rest ih =>
    intro c hnd hfresh
    simp only [List.map_cons, List.nodup_cons] at hnd
    have hkc : r.key ∉ kvKeys c := hfresh r (List.mem_cons_self r rest)
    have hget : kvGet r.key c = none := (kvGet_eq_none_iff _ c).mpr hkc
    have hstep : doInsert c r.key (r.value.getD "") =
        kvSet r.key (FlushStatus.Insert (r.value.getD "")) c := by
      unfold doInsert
      rw [hget]
    rw [List.foldl_cons, ih (doInsert c r.key (r.value.getD "")) hnd.2 ?_]
    · rw [hstep, length_kvSet_of_not_mem _ hkc]
      simp [Nat.add_assoc, Nat.add_comm 1]
    · intro r' hr' hmem
      rw [mem_kvKeys_doInsert] at hmem
      rcases hmem with heq | hmem
      · exact hnd.1 (heq ▸ List.mem_map_of_mem Row.key hr')
      · exact hfresh r' (List.mem_cons_of_mem r hr') hmem

theorem kvGet_insFold :
    ∀ (rows : List Row) (c : Cache) (a : Bytes), (rows.map Row.key).Nodup →
    (∀ r ∈ rows, r.key ∉ kvKeys c) →
    kvGet a (rows.foldl (fun c r => doInsert c r.key (r.value.getD "")) c) =
      (match kvGet a (rows.map (fun r => (r.key, r.value))) with
      | some w => some (FlushStatus.Insert (w.getD ""))
      | none => kvGet a c) := by
  intro rows
  induction rows with
  | nil => intro c a _ _; rfl
  | cons r rest ih =>
    intro c a hnd hfresh
    simp only [List.map_cons, List.nodup_cons] at hnd
    have hkc : r.key ∉ kvKeys c := hfresh r (List.mem_cons_self r rest)
    have hget : kvGet r.key c = none := (kvGet_eq_none_iff _ c).mpr hkc
    have hstep : doInsert c r.key (r.value.getD "") =
        kvSet r.key (FlushStatus.Insert (r.value.getD "")) c := by
      unfold doInsert
      rw [hget]
    have hfresh' : ∀ r' ∈ rest, r'.key ∉ kvKeys (doInsert c r.key (r.value.getD "")) := by
      intro r' hr' hmem
      rw [mem_kvKeys_doInsert] at hmem
      rcases hmem with heq | hmem
      · exact hnd.1 (heq ▸ List.mem_map_of_mem Row.key hr')
      · exact hfresh r' (List.mem_cons_of_mem r hr') hmem
    rw [List.foldl_cons, ih (doInsert c r.key (r.value.getD "")) a hnd.2 hfresh']
    by_cases ha : a = r.key
    · have hnone : kvGet a (rest.map (fun r => (r.key, r.value))) = none := by
        rw [kvGet_eq_none_iff]
        intro hmem
        apply hnd.1
        have hkk : kvKeys (rest.map (fun r => (r.key, r.value))) =
            rest.map Row.key := by
          simp [kvKeys, List.map_map]
        rw [hkk] at hmem
        exact ha ▸ hmem
      rw [hnone]
      simp only [kvGet, List.map_cons, if_pos ha]
      rw [hstep, ha, kvGet_kvSet_self]
    · simp only [kvGet, List.map_cons, if_neg ha]
      cases hrest : kvGet a (rest.map (fun r => (r.key, r.value))) with
      | some w => rfl
      | none =>
        rw [hstep, kvGet_kvSet_ne _ c ha]

theorem applyRowsFrom_insert_cache :
    ∀ (rows : List Row) (i : Nat) (st : AggState),
    (∀ r ∈ rows, r.op = Op.Insert) →
    (applyRowsFrom none i st rows).cache =
      rows.foldl (fun c r => doInsert c r.key (r.value.getD "")) st.cache := by
  intro rows
  induction rows with
  | nil => intro i st _; rfl
  | cons r rest ih =>
    intro i st hops
    have hop : r.op = Op.Insert := hops r (List.mem_cons_self r rest)
    obtain ⟨op, key, value⟩ := r
    simp only at hop
    subst hop
    rw [applyRowsFrom, if_pos (show rowVisible none i = true from rfl), List.foldl_cons]
    exact ih (i + 1) (applyOp st ⟨Op.Insert, key, value⟩)
      (fun r' hr' => hops r' (List.mem_cons_of_mem _ hr'))

theorem applyRowsFrom_insert_count :
    ∀ (rows : List Row) (i : Nat) (st : AggState),
    (∀ r ∈ rows, r.op = Op.Insert) →
    (applyRowsFrom none i st rows).total_count = st.total_count + rows.length := by
  intro rows
  induction rows with
  | nil => intro i st _; rfl
  | cons r rest ih =>
    intro i st hops
    have hop : r.op = Op.Insert := hops r (List.mem_cons_self r rest)
    obtain ⟨op, key, value⟩ := r
    simp only at hop
    subst hop
    rw [applyRowsFrom, if_pos (show rowVisible none i = true from rfl)]
    rw [ih (i + 1) (applyOp st ⟨Op.Insert, key, value⟩)
      (fun r' hr' => hops r' (List.mem_cons_of_mem _ hr'))]
    have : (applyOp st ⟨Op.Insert, key, value⟩).total_count =
        st.total_count + 1 := rfl
    rw [this]
    simp [Nat.add_assoc, Nat.add_comm 1]

theorem applyRowsFrom_nonempty (rows : List Row) (i : Nat) (st : AggState)
    (hne : rows ≠ []) :
    (applyRowsFrom none i st rows).dirty = true ∧
      (applyRowsFrom none i st rows).result = none := by
  cases rows with
  | nil => exact absurd rfl hne
  | cons r rest =>
    rw [applyRowsFrom, if_pos (show rowVisible none i = true from rfl)]
    rcases applyRowsFrom_cases none rest (i + 1) (applyOp st r) with heq | h
    · rw [heq]
      exact ⟨applyOp_dirty st r, applyOp_result st r⟩
    · exact h

theorem kvGet_some_iff_mem {β : Type} {l : KVList β}
    (hnd : (kvKeys l).Nodup) (k : Bytes) (v : β) :
    kvGet k l = some v ↔ (k, v) ∈ l := by
  induction l with
  | nil => simp [kvGet]
  | cons hd tl ih =>
    obtain ⟨a, b⟩ := hd
    simp only [kvKeys, List.map_cons, List.nodup_cons] at hnd
    by_cases hk : k = a
    · subst hk
      have hg : kvGet k ((k, b) :: tl) = some b := by simp [kvGet]
      rw [hg]
      simp only [List.mem_cons, Option.some.injEq]
      constructor
      · intro hv
        exact Or.inl (by rw [hv])
      · intro hmem
        rcases hmem with heq | hmem
        · exact (Prod.mk.injEq .. ▸ heq).2.symm
        · exfalso
          exact hnd.1 (List.mem_map_of_mem Prod.fst hmem)
    · simp only [kvGet, if_neg hk, List.mem_cons]
      rw [ih hnd.2]
      constructor
      · exact Or.inr
      · intro hmem
        rcases hmem with heq | hmem
        · exfalso
          exact hk (congrArg Prod.fst heq)
        · exact hmem

theorem kvGet_eq_of_perm {β : Type} {l1 l2 : KVList β}
    (hperm : l1.Perm l2) (hnd : (kvKeys l1).Nodup) (k : Bytes) :
    kvGet k l1 = kvGet k l2 := by
  have hkeys : (kvKeys l1).Perm (kvKeys l2) := hperm.map Prod.fst
  have hnd2 : (kvKeys l2).Nodup := hkeys.nodup_iff.mp hnd
  cases hget : kvGet k l1 with
  | some v =>
    have := (kvGet_some_iff_mem hnd k v).mp hget
    exact ((kvGet_some_iff_mem hnd2 k v).mpr (hperm.mem_iff.mp this)).symm
  | none =>
    rw [kvGet_eq_none_iff] at hget
    have : k ∉ kvKeys l2 := fun hmem => hget (hkeys.mem_iff.mpr hmem)
    exact ((kvGet_eq_none_iff k l2).mpr this).symm

theorem liveVals_insertImage (l : List (Bytes × Option String)) :
    liveVals (l.map (fun p => (p.1, FlushStatus.Insert (p.2.getD "")))) =
      l.map (fun p => p.2.getD "") := by
  induction l with
  | nil => rfl
  | cons hd tl ih =>
    simp [liveVals, FlushStatus.asOption] at ih ⊢
    exact ih

theorem mem_kvKeys_insFold :
    ∀ (rows : List Row) (c : Cache) (a : Bytes),
    a ∈ kvKeys (rows.foldl (fun c r => doInsert c r.key (r.value.getD "")) c) ↔
      a ∈ kvKeys c ∨ a ∈ rows.map Row.key := by
  intro rows
  induction rows with
  | nil => intro c a; simp
  | cons r rest ih =>
    intro c a
    rw [List.foldl_cons, ih]
    rw [mem_kvKeys_doInsert]
    simp only [List.map_cons, List.mem_cons]
    tauto

theorem applyRowsFrom_none_append :
    ∀ (l1 l2 : List Row) (i : Nat) (st : AggState),
    applyRowsFrom none i st (l1 ++ l2) =
      applyRowsFrom none 0 (applyRowsFrom none i st l1) l2 := by
  intro l1
  induction l1 with
  | nil =>
    intro l2 i st
    exact applyRowsFrom_none_idx l2 i 0 st
  | cons r rest ih =>
    intro l2 i st
    rw [List.cons_append, applyRowsFrom, applyRowsFrom]
    exact ih l2 (i + 1) (if rowVisible none i then applyOp st r else st)

theorem applyBatches_insert :
    ∀ (batches : List (List Row)) (st : AggState),
    (∀ b ∈ batches, ∀ r ∈ b, r.op = Op.Insert) →
    st.total_count = st.cache.length →
    KeysSorted st.cache →
    (kvKeys st.cache ++ (batches.join.map Row.key)).Nodup →
    applyBatches [] st batches = some (applyRowsFrom none 0 st batches.join) := by
  intro batches
  induction batches with
  | nil => intro st _ _ _ _; rfl
  | cons b bs ih =>
    intro st hops hcl hsorted hnd
    have hopsb : ∀ r ∈ b, r.op = Op.Insert := hops b (List.mem_cons_self b bs)
    have hnoload : ¬(st.cache.length < st.total_count) := by omega
    have hb : applyBatch [] st b none = some (applyRowsFrom none 0 st b) := by
      unfold applyBatch applyBatchLoad
      rw [if_neg hnoload, Option.map_some']
    have hjoin : (b :: bs).join = b ++ bs.join := rfl
    rw [hjoin] at hnd
    simp only [List.map_append, ← List.append_assoc] at hnd
    have hnd1 : (kvKeys st.cache ++ b.map Row.key).Nodup :=
      hnd.sublist (List.sublist_append_left _ _)
    have hndJ : ((kvKeys st.cache ++ b.map Row.key) ++
        bs.join.map Row.key).Nodup := hnd
    have hndb : (b.map Row.key).Nodup :=
      hnd1.sublist (List.sublist_append_right _ _)
    have hfreshb : ∀ r ∈ b, r.key ∉ kvKeys st.cache := by
      intro r hr hmem
      have hdisj := (List.nodup_append.mp hnd1).2.2
      exact hdisj hmem (List.mem_map_of_mem Row.key hr)
    have hcache : (applyRowsFrom none 0 st b).cache =
        b.foldl (fun c r => doInsert c r.key (r.value.getD "")) st.cache :=
      applyRowsFrom_insert_cache b 0 st hopsb
    have hcount : (applyRowsFrom none 0 st b).total_count =
        st.total_count + b.length :=
      applyRowsFrom_insert_count b 0 st hopsb
    have hlenA : (applyRowsFrom none 0 st b).cache.length =
        st.cache.length + b.length := by
      rw [hcache]
      exact length_insFold b st.cache hndb hfreshb
    have hsortedA : KeysSorted (applyRowsFrom none 0 st b).cache := by
      rw [hcache]
      exact keysSorted_insFold b st.cache hsorted
    have hndA : (kvKeys (applyRowsFrom none 0 st b).cache ++
        bs.join.map Row.key).Nodup := by
      rw [List.nodup_append]
      refine ⟨keysSorted_nodup hsortedA,
        (List.nodup_append.mp hndJ).2.1, ?_⟩
      intro a haA haJ
      rw [hcache, mem_kvKeys_insFold] at haA
      have hdisjJ := (List.nodup_append.mp hndJ).2.2
      apply hdisjJ ?_ haJ
      rcases haA with h | h
      · exact List.mem_append_left _ h
      · exact List.mem_append_right _ h
    have happly : applyBatches [] st (b :: bs) =
        (applyBatch [] st b none).bind (fun s => applyBatches [] s bs) := rfl
    rw [happly, hb, Option.some_bind]
    rw [ih (applyRowsFrom none 0 st b)
      (fun b' hb' => hops b' (List.mem_cons_of_mem b hb'))
      (by omega) hsortedA hndA]
    rw [hjoin, applyRowsFrom_none_append]

theorem kvGet_mapVal {β γ : Type} (g : β → γ) :
    ∀ (l : List (Bytes × β)) (a : Bytes),
    kvGet a (l.map (fun p => (p.1, g p.2))) = (kvGet a l).map g := by
  intro l
  induction l with
  | nil => intro a; rfl
  | cons hd tl ih =>
    intro a
    obtain ⟨k, v⟩ := hd
    by_cases ha : a = k
    · simp [kvGet, ha]
    · simp only [List.map_cons, kvGet, if_neg ha]
      exact ih a

/-- C2 (confirmed): order-independent grouping with insert-only input. For
every nonempty set of insert rows with pairwise-distinct sort keys, every
permutation of the set and every partition of that permutation into batches,
applying all batches with `apply_batch` to a fresh state and then calling
`get_output` succeeds and returns the delimiter-join of the value column in
ascending byte order of the encoded sort keys — the same result for every
permutation and every partition, since the statement's right-hand side
depends only on the underlying set. -/
theorem claim_C2 (rows sortedRows : List (Bytes × Option String))
    (delim : String) (batches : List (List Row))
    (hne : rows ≠ [])
    (hnd : (rows.map Prod.fst).Nodup)
    (hops : ∀ b ∈ batches, ∀ r ∈ b, r.op = Op.Insert)
    (hperm : (batches.join.map (fun r => (r.key, r.value))).Perm rows)
    (hsortp : sortedRows.Perm rows)
    (hsorts : List.Pairwise (fun a b => a < b) (sortedRows.map Prod.fst)) :
    ∃ st' stq, applyBatches [] (newState 0 delim) batches = some st' ∧
      getOutput [] st' = some (stq, some (String.intercalate delim
        (sortedRows.map (fun p => p.2.getD "")))) := by
  have hopsJ : ∀ r ∈ batches.join, r.op = Op.Insert := by
    intro r hr
    rw [List.mem_join] at hr
    obtain ⟨b, hb, hrb⟩ := hr
    exact hops b hb r hrb
  have hkeysJ : (batches.join.map (fun r => (r.key, r.value))).map Prod.fst =
      batches.join.map Row.key := by
    rw [List.map_map]; rfl
  have hndJk : (batches.join.map Row.key).Nodup := by
    rw [← hkeysJ]
    exact ((hperm.map Prod.fst).nodup_iff).mpr hnd
  have hndfull : (kvKeys (newState 0 delim).cache ++
      batches.join.map Row.key).Nodup := by
    simpa [newState, kvKeys] using hndJk
  have hA := applyBatches_insert batches (newState 0 delim) hops rfl
    (by simp [newState, KeysSorted, kvKeys]) hndfull
  refine ⟨applyRowsFrom none 0 (newState 0 delim) batches.join,
    concatStringsInCacheIntoResult
      (applyRowsFrom none 0 (newState 0 delim) batches.join), hA, ?_⟩
  have hjne : batches.join ≠ [] := by
    intro h0
    apply hne
    have : ([] : List (Bytes × Option String)).Perm rows := by
      simpa [h0] using hperm
    exact (List.perm_nil.mp this.symm).symm ▸ rfl
  have hdr := applyRowsFrom_nonempty batches.join 0 (newState 0 delim) hjne
  have hfreshnil : ∀ r ∈ batches.join, r.key ∉
      kvKeys (newState 0 delim).cache := by
    intro r _ hmem
    simp [newState, kvKeys] at hmem
  have hcache : (applyRowsFrom none 0 (newState 0 delim) batches.join).cache =
      sortedRows.map (fun p => (p.1, FlushStatus.Insert (p.2.getD ""))) := by
    rw [applyRowsFrom_insert_cache batches.join 0 (newState 0 delim) hopsJ]
    apply kvList_ext
    · exact keysSorted_insFold batches.join (newState 0 delim).cache
        (by simp [newState, KeysSorted, kvKeys])
    · show KeysSorted _
      unfold KeysSorted
      have hkk : kvKeys (sortedRows.map
          (fun p => (p.1, FlushStatus.Insert (p.2.getD "")))) =
          sortedRows.map Prod.fst := by
        unfold kvKeys
        rw [List.map_map]; rfl
      rw [hkk]
      exact hsorts
    · intro k
      rw [kvGet_insFold batches.join (newState 0 delim).cache k hndJk hfreshnil]
      rw [kvGet_mapVal (fun w => FlushStatus.Insert (w.getD "")) sortedRows k]
      have hndJm : (kvKeys (batches.join.map
          (fun r => (r.key, r.value)))).Nodup := by
        show ((batches.join.map (fun r => (r.key, r.value))).map Prod.fst).Nodup
        rw [hkeysJ]
        exact hndJk
      have hpermS : (batches.join.map (fun r => (r.key, r.value))).Perm
          sortedRows := hperm.trans hsortp.symm
      rw [kvGet_eq_of_perm hpermS hndJm k]
      cases kvGet k sortedRows with
      | some w => rfl
      | none => simp [newState, kvGet]
  have hcount : (applyRowsFrom none 0 (newState 0 delim)
      batches.join).total_count = batches.join.length := by
    rw [applyRowsFrom_insert_count batches.join 0 (newState 0 delim) hopsJ]
    simp [newState]
  have hdelim : (applyRowsFrom none 0 (newState 0 delim)
      batches.join).delimiter = delim := by
    rw [applyRowsFrom_delimiter none batches.join 0 (newState 0 delim)]
    rfl
  have hcount0 : (applyRowsFrom none 0 (newState 0 delim)
      batches.join).total_count ≠ 0 := by
    rw [hcount]
    intro h0
    exact hjne (List.length_eq_zero.mp h0)
  unfold getOutput
  rw [if_pos hdr.1]
  congr 1
  unfold concatStringsInCacheIntoResult
  rw [hdr.2]
  simp only [Option.isSome_none, Bool.false_eq_true, if_false, if_neg hcount0]
  have hlv : (applyRowsFrom none 0 (newState 0 delim)
      batches.join).cache.filterMap (fun kv => kv.2.asOption) =
      sortedRows.map (fun p => p.2.getD "") := by
    rw [hcache]
    exact liveVals_insertImage sortedRows
  rw [hlv, hdelim]

/-- Witness for C2: two insert rows split into two singleton batches, applied
out of key order, produce the ascending-key join. -/
theorem claim_C2_witness :
    ∃ st' stq, applyBatches [] (newState 0 ",")
      [[⟨Op.Insert, [1], some "b"⟩], [⟨Op.Insert, [0], some "a"⟩]] = some st' ∧
      getOutput [] st' = some (stq, some (String.intercalate ","
        ([([0], some "a"), ([1], some "b")].map
          (fun p : Bytes × Option String => p.2.getD "")))) :=
  claim_C2 [([0], some "a"), ([1], some "b")]
    [([0], some "a"), ([1], some "b")] ","
    [[⟨Op.Insert, [1], some "b"⟩], [⟨Op.Insert, [0], some "a"⟩]]
    (by decide) (by decide) (by decide) (by decide) (by decide) (by decide)
